import Mathlib

/-
A verification development for the glscript language-server core
(directive resolution, bundling, position mapping, proxy-session state,
and the "Transpile to ES syntax" rewrite).

The repository ships the server as a prebuilt executable; the checked-in
sources are its documentation, an example CLI client and example glscript
files.  The core components below are therefore modelled from the spec
(sections 3, 4.1-4.4, 7, 8) and from the expected transpiled output
embedded in the example CLI client, and the theorems are proved against
that model.

Representation choices, documented once here:
* a source file is a list of lines (`List Line`, `Line := List Char`);
  its byte text is the lines joined with a terminating newline each
  (`origText`), so every line occupies `length + 1` characters;
* paths are lists of segments (`Path := List (List Char)`), absolute
  from the workspace root after resolution;
* positions are byte offsets; the (line, column) presentation used by
  the protocol layer is the bijection `offsetToLC` / `lcToOffset`.
-/

namespace GLS

abbrev Line : Type := List Char

abbrev Path : Type := List (List Char)

abbrev FS : Type := List (Path × List Line)

/-- Modelled from the spec: workspace file contents, addressed by resolved
absolute path (the real file system backing the missing Directive Resolver). -/
def lookupFS (fs : FS) (p : Path) : Option (List Line) :=
  match fs with
  | [] => none
  | (q, v) :: rest => if q = p then some v else lookupFS rest p

/-- A line occupies its characters plus its terminating newline. -/
def lineLen (l : Line) : Nat := l.length + 1

/-- Total byte length of a list of lines. -/
def totalLen (ls : List Line) : Nat := (ls.map lineLen).sum

/-- The byte text of a file: each line followed by a newline. -/
def origText (ls : List Line) : List Char := (ls.map (fun l => l ++ ['\n'])).flatten

/-! ## Path resolution (spec 4.1) -/

/-- Split raw path characters at `/` separators. -/
def splitSlash : List Char → List (List Char)
  | [] => [[]]
  | c :: cs =>
    if c = '/' then [] :: splitSlash cs
    else
      match splitSlash cs with
      | [] => [[c]]
      | s :: ss => (c :: s) :: ss

/-- Does the raw path start with `./` or `../`? -/
def isRelRaw (raw : List Char) : Bool :=
  List.isPrefixOf "./".toList raw || List.isPrefixOf "../".toList raw

/-- One normalisation step: `.` is dropped, `..` pops, a segment is pushed. -/
def normStep (acc : Path) (s : List Char) : Path :=
  if s = ".".toList then acc
  else if s = "..".toList then acc.dropLast
  else acc ++ [s]

/-- Modelled from the spec: path resolution rule of the missing Directive
Resolver — a path starting with `./` or `../` resolves relative to the
including file's directory, any other path resolves against the workspace
root; the result is a normalised absolute path. -/
def resolvePath (baseDir : Path) (raw : List Char) : Path :=
  (splitSlash raw).foldl normStep (if isRelRaw raw then baseDir else [])

/-- Directory of a file path. -/
def dirOf (p : Path) : Path := p.dropLast

/-! ## Directive scanning (spec 4.1) -/

def incMarker : List Char := "#include <".toList

def impMarker : List Char := "import \"".toList

def textOpenMarker : List Char := "#text".toList

def textEndMarker : List Char := "#endtext".toList

/-- Split a character list at the first occurrence of `ch` (which is dropped). -/
def splitAtChar (ch : Char) : List Char → Option (List Char × List Char)
  | [] => none
  | c :: cs =>
    if c = ch then some ([], cs)
    else
      match splitAtChar ch cs with
      | none => none
      | some (a, b) => some (c :: a, b)

/-- Recognise a `#include <path>` line; yields the path characters and the
rest of the line after the closing `>`. -/
def isIncludeLine (l : Line) : Option (List Char × List Char) :=
  if List.isPrefixOf incMarker l then splitAtChar '>' (l.drop incMarker.length) else none

/-- Recognise a top-level `import "path"` line; yields the path characters. -/
def isImportLine (l : Line) : Option (List Char) :=
  if List.isPrefixOf impMarker l then (splitAtChar '"' (l.drop impMarker.length)).map Prod.fst
  else none

/-- Recognise the `#text` opening marker (line-anchored). -/
def isTextOpen (l : Line) : Bool := l = textOpenMarker

/-- Recognise the `#endtext` closing marker (line-anchored). -/
def isTextEnd (l : Line) : Bool := l = textEndMarker

/-- Parsed directive surface of one file (spec 3, "Directive"). -/
inductive PItem where
  | plain (line : Line)
  | includeDir (raw : Line) (path : List Char)
  | textBlock (rawOpen : Line) (content : List Line) (rawClose : Line)
deriving DecidableEq

/-- Modelled from the spec: the resolution-time error taxonomy of the
missing Directive Resolver / Bundler (spec 7).  `depthExceeded` is the
recursion bound of the shallow embedding; it is proved unreachable. -/
inductive GlError where
  | unresolvedInclude
  | cyclicInclude
  | unterminatedTextBlock (line : Nat)
  | depthExceeded
deriving DecidableEq

/-- Modelled from the spec: the line-anchored directive scanner of the
missing Directive Resolver.  The first argument is `none` in normal mode,
or `some (openLineIdx, openLine, contentSoFar)` inside a `#text` block;
the second is the current line index. -/
def parseGo : Option (Nat × Line × List Line) → Nat → List Line → Except GlError (List PItem)
  | none, _, [] => .ok []
  | some (oi, _, _), _, [] => .error (.unterminatedTextBlock oi)
  | none, idx, l :: ls =>
    if isTextOpen l then parseGo (some (idx, l, [])) (idx + 1) ls
    else
      match isIncludeLine l with
      | some (p, _) => (parseGo none (idx + 1) ls).map (fun items => .includeDir l p :: items)
      | none =>
        match isImportLine l with
        | some p => (parseGo none (idx + 1) ls).map (fun items => .includeDir l p :: items)
        | none => (parseGo none (idx + 1) ls).map (fun items => .plain l :: items)
  | some (oi, ro, acc), idx, l :: ls =>
    if isTextEnd l then
      (parseGo none (idx + 1) ls).map (fun items => .textBlock ro acc l :: items)
    else parseGo (some (oi, ro, acc ++ [l])) (idx + 1) ls

/-- Parse a file's directive surface. -/
def parseLines (ls : List Line) : Except GlError (List PItem) := parseGo none 0 ls

instance instDecEqExcept {e a : Type} [DecidableEq e] [DecidableEq a] :
    DecidableEq (Except e a) := fun x y =>
  match x, y with
  | .ok u, .ok v =>
    if h : u = v then .isTrue (by rw [h])
    else .isFalse (by intro hc; cases hc; exact h rfl)
  | .error u, .error v =>
    if h : u = v then .isTrue (by rw [h])
    else .isFalse (by intro hc; cases hc; exact h rfl)
  | .ok _, .error _ => .isFalse (by intro hc; cases hc)
  | .error _, .ok _ => .isFalse (by intro hc; cases hc)

/-- Original-file extent (in bytes) consumed by one parsed item. -/
def itemLen : PItem → Nat
  | .plain l => lineLen l
  | .includeDir raw _ => lineLen raw
  | .textBlock ro c rc => lineLen ro + totalLen c + lineLen rc

/-- Original-file extent of a list of items. -/
def itemsLen (items : List PItem) : Nat := (items.map itemLen).sum

/-! ## Bundling (spec 4.2) and mapping segments (spec 3) -/

/-- Mapping-segment kinds (spec 3, "MappingSegment"). -/
inductive SegKind where
  | Verbatim
  | InjectedPreamble
  | InjectedInclude
  | SyntheticDirectiveTrivia
deriving DecidableEq

/-- A chunk of generated output together with the original span it was
produced from; the bundler emits a list of chunks, from which the
generated text and the mapping-segment table are read off. -/
structure Chunk where
  data : List Char
  originFile : Path
  originStart : Nat
  originEnd : Nat
  kind : SegKind
deriving DecidableEq

/-- A mapping segment (spec 3): a contiguous generated region and the
original span it corresponds to. -/
structure MappingSegment where
  genStart : Nat
  genEnd : Nat
  originFile : Path
  originStart : Nat
  originEnd : Nat
  kind : SegKind
deriving DecidableEq

/-- The segment a chunk induces at generated position `pos`. -/
def mkSeg (pos : Nat) (c : Chunk) : MappingSegment :=
  ⟨pos, pos + c.data.length, c.originFile, c.originStart, c.originEnd, c.kind⟩

/-- The ordered mapping-segment table of a chunk list starting at `pos`. -/
def segsFrom (pos : Nat) : List Chunk → List MappingSegment
  | [] => []
  | c :: cs => mkSeg pos c :: segsFrom (pos + c.data.length) cs

/-- The generated text of a chunk list. -/
def emit (cs : List Chunk) : List Char := (cs.map Chunk.data).flatten

/-- Opening delimiter trivia of a lowered `#text` block (matches the
expected transpiled output in the example CLI client). -/
def lowerOpen : List Char := "    `".toList

/-- Closing delimiter trivia of a lowered `#text` block. -/
def lowerClose : List Char := "`;\n".toList

/-- The full lowered form of a `#text` block with content lines `c`. -/
def lowerTB (c : List Line) : List Char := lowerOpen ++ origText c ++ lowerClose

/-- The literal value carried by a lowered `#text` block: the bytes between
the delimiter trivia. -/
def literalValueOf (l : List Char) : List Char :=
  (l.drop lowerOpen.length).take (l.length - lowerOpen.length - lowerClose.length)

/-- The chunk of one verbatim line of file `f` at original offset `o`. -/
def plainChunk (k : SegKind) (f : Path) (o : Nat) (l : Line) : Chunk :=
  ⟨l ++ ['\n'], f, o, o + lineLen l, k⟩

/-- The three chunks of a lowered `#text` block: synthetic open delimiter
(mapped to the `#text` marker span), byte-preserved content, synthetic
close delimiter (mapped to the `#endtext` marker span). -/
def tbChunks (k : SegKind) (f : Path) (o : Nat) (ro : Line) (c : List Line) (rc : Line) :
    List Chunk :=
  [⟨lowerOpen, f, o, o + lineLen ro, .SyntheticDirectiveTrivia⟩,
   ⟨origText c, f, o + lineLen ro, o + lineLen ro + totalLen c, k⟩,
   ⟨lowerClose, f, o + lineLen ro + totalLen c, o + lineLen ro + totalLen c + lineLen rc,
    .SyntheticDirectiveTrivia⟩]

/-- Kind assigned to content spliced below the current context: everything
reached through an include edge is injected. -/
def childKind : SegKind → SegKind
  | .Verbatim => .InjectedInclude
  | k => k

abbrev ExpRes : Type := Except GlError (List Chunk × List Path)

/-- Modelled from the spec: the walk of one file's parsed items by the
missing Bundler (spec 4.2 step 2-4).  `rcall` expands one include target
(closing over the expansion stack), `f` is the current file, `o` the
current original offset, and the `List Path` state is the set of files
already expanded (C-preprocessor "effective content appears once"
semantics). -/
def expandItemsWith (rcall : SegKind → Path → List Path → ExpRes) (k : SegKind) (f : Path) :
    List PItem → Nat → List Path → ExpRes
  | [], _, ex => .ok ([], ex)
  | .plain l :: items, o, ex =>
    match expandItemsWith rcall k f items (o + lineLen l) ex with
    | .error err => .error err
    | .ok (cs, e') => .ok (plainChunk k f o l :: cs, e')
  | .includeDir raw p :: items, o, ex =>
    match rcall (childKind k) (resolvePath (dirOf f) p) ex with
    | .error err => .error err
    | .ok (tc, e1) =>
      match expandItemsWith rcall k f items (o + lineLen raw) e1 with
      | .error err => .error err
      | .ok (cs, e2) => .ok (tc ++ cs, e2)
  | .textBlock ro c rc :: items, o, ex =>
    match expandItemsWith rcall k f items (o + itemLen (.textBlock ro c rc)) ex with
    | .error err => .error err
    | .ok (cs, e') => .ok (tbChunks k f o ro c rc ++ cs, e')

/-- Modelled from the spec: expansion of one include target by the missing
Bundler.  A target already on the expansion stack is a cycle (spec 4.1);
a target already expanded is a no-op (spec 4.2 step 2); otherwise the
target is looked up, parsed, pushed on the stack and walked. -/
def expandTarget (fs : FS) : Nat → List Path → SegKind → Path → List Path → ExpRes
  | 0, _, _, _, _ => .error .depthExceeded
  | fuel + 1, stack, k, t, ex =>
    if t ∈ stack then .error .cyclicInclude
    else if t ∈ ex then .ok ([], ex)
    else
      match lookupFS fs t with
      | none => .error .unresolvedInclude
      | some lines =>
        match parseLines lines with
        | .error e => .error e
        | .ok items =>
          expandItemsWith (fun k' t' e' => expandTarget fs fuel (t :: stack) k' t' e')
            k t items 0 (t :: ex)

/-- Recursion bound: strictly more than the number of workspace files. -/
def bundleFuel (fs : FS) : Nat := fs.length + 1

/-- Modelled from the spec: the missing Bundler (spec 4.2).  The root file
is parsed, the implicit preamble is expanded first (kind
`InjectedPreamble`), then the root's own items are walked with kind
`Verbatim`; the root is on the expansion stack and in the expanded set
throughout. -/
def bundleChunks (fs : FS) (pre root : Path) : Except GlError (List Chunk) :=
  match lookupFS fs root with
  | none => .error .unresolvedInclude
  | some lines =>
    match parseLines lines with
    | .error e => .error e
    | .ok items =>
      match expandTarget fs (bundleFuel fs) [root] .InjectedPreamble pre [root] with
      | .error e => .error e
      | .ok (pc, e1) =>
        match expandItemsWith
            (fun k' t' e' => expandTarget fs (bundleFuel fs) [root] k' t' e')
            .Verbatim root items 0 e1 with
        | .error e => .error e
        | .ok (cs, _) => .ok (pc ++ cs)

/-- Modelled from the spec: the stable content hash used as cache key
(spec 4.2 step 5), a fold over the byte sequence. -/
def contentHash (l : List Char) : Nat :=
  l.foldl (fun h c => (h * 31 + c.toNat) % (2 ^ 64)) 5381

/-- A generated document (spec 3): generated text, content hash, ordered
mapping-segment table, and the source file it was generated for. -/
structure GenDoc where
  text : List Char
  segments : List MappingSegment
  hash : Nat
  srcFile : Path
deriving DecidableEq

/-- Modelled from the spec: the missing Bundler's document production. -/
def bundleDoc (fs : FS) (pre root : Path) : Except GlError GenDoc :=
  match bundleChunks fs pre root with
  | .error e => .error e
  | .ok cs => .ok ⟨emit cs, segsFrom 0 cs, contentHash (emit cs), root⟩

/-! ## Position mapping (spec 4.3) -/

/-- Modelled from the spec: `toOrigin` of the missing Position Mapper —
locate the enclosing segment; a `Verbatim` segment offsets linearly into
`originStart`, every other kind collapses to the segment's `originStart`. -/
def toOrigin (segs : List MappingSegment) (g : Nat) : Option (Path × Nat) :=
  match segs.find? (fun s => decide (s.genStart ≤ g ∧ g < s.genEnd)) with
  | some s =>
    some (s.originFile, if s.kind = .Verbatim then s.originStart + (g - s.genStart) else s.originStart)
  | none => none

/-- Modelled from the spec: `toGenerated` of the missing Position Mapper —
inverse lookup; positions that exist only inside synthetic directive
trivia are `NotMapped` (`none`). -/
def toGenerated (segs : List MappingSegment) (f : Path) (o : Nat) : Option Nat :=
  match segs.find?
      (fun s => decide (s.kind ≠ .SyntheticDirectiveTrivia ∧ s.originFile = f ∧
                        s.originStart ≤ o ∧ o < s.originEnd)) with
  | some s => some (s.genStart + (o - s.originStart))
  | none => none

/-- Byte offset to (line, column) within a file's lines; a column equal to
the line length denotes the terminating newline. -/
def offsetToLC : List Line → Nat → Nat × Nat
  | [], o => (0, o)
  | l :: ls, o =>
    if o < lineLen l then (0, o)
    else ((offsetToLC ls (o - lineLen l)).1 + 1, (offsetToLC ls (o - lineLen l)).2)

/-- (line, column) back to a byte offset within a file's lines. -/
def lcToOffset : List Line → Nat × Nat → Nat
  | [], (_, c) => c
  | _ :: _, (0, c) => c
  | l :: ls, (r + 1, c) => lineLen l + lcToOffset ls (r, c)

/-- `toOrigin` in the (file, line, column) presentation used by the
protocol layer. -/
def toOriginLC (fs : FS) (segs : List MappingSegment) (g : Nat) : Option (Path × Nat × Nat) :=
  match toOrigin segs g with
  | some (f, o) =>
    match lookupFS fs f with
    | some ls => some (f, offsetToLC ls o)
    | none => none
  | none => none

/-- `toGenerated` in the (file, line, column) presentation. -/
def toGeneratedLC (fs : FS) (segs : List MappingSegment) (f : Path) (r c : Nat) : Option Nat :=
  match lookupFS fs f with
  | some ls => toGenerated segs f (lcToOffset ls (r, c))
  | none => none

/-! ## Proxy-session state (spec 4.4, scenario 3) -/

/-- Modelled from the spec: the per-document state of the missing Proxy
Session — the current good generated document served to the wrapped
service, and the resolution diagnostics surfaced to the editor. -/
structure SessionState where
  current : Option GenDoc
  diags : List GlError
deriving DecidableEq

/-- Modelled from the spec: edit handling of the missing Proxy Session —
re-resolve and re-bundle; on success publish the new document, on a
resolution error surface it as a diagnostic and keep serving the last
good generated document unchanged. -/
def onEdit (fs : FS) (pre root : Path) (s : SessionState) : SessionState :=
  match bundleDoc fs pre root with
  | .ok gd => ⟨some gd, []⟩
  | .error e => ⟨s.current, [e]⟩

/-! ## The "Transpile to ES syntax" rewrite -/

/-- Modelled from the spec and the expected transpiled output in the
example CLI client: the `#include <path>` directive is rewritten to
`import   "path"` (three spaces), which occupies exactly as many
characters as the directive it replaces; the rest of the line is kept. -/
def importReplacement (p : List Char) : List Char := "import   \"".toList ++ p ++ ['"']

/-- Rewrite one line for the "Transpile to ES syntax" action. -/
def transpileLine (l : Line) : Line :=
  match isIncludeLine l with
  | some (p, rest) => importReplacement p ++ rest
  | none => l

/-- Modelled from the spec: the full "Transpile to ES syntax" rewrite of a
parsed file — include directives are rewritten in place, `#text` blocks
are lowered, everything else is kept verbatim. -/
def transpileItem : PItem → List Char
  | .plain l => l ++ ['\n']
  | .includeDir raw _ => transpileLine raw ++ ['\n']
  | .textBlock _ c _ => lowerTB c

/-- The transpiled text of a parsed file. -/
def transpileItems (items : List PItem) : List Char := (items.map transpileItem).flatten

/-! ## Dependency graph edges (spec 3, 4.1) -/

/-- Modelled from the spec: the direct dependency edges of a parsed file —
resolved include targets, with both directive forms and duplicate
references collapsed to a single edge. -/
def directDeps (baseDir : Path) (items : List PItem) : List Path :=
  (items.filterMap (fun i =>
    match i with
    | .includeDir _ p => some (resolvePath baseDir p)
    | _ => none)).dedup

/-- Items that contain no include directive. -/
def noIncludes (items : List PItem) : Bool :=
  items.all (fun i =>
    match i with
    | .includeDir _ _ => false
    | _ => true)

/-- Replace the contents of file `p` (an edit notification). -/
def updateFS (fs : FS) (p : Path) (v : List Line) : FS :=
  fs.map (fun q => if q.1 = p then (q.1, v) else q)

/-! ## Bundler invariants -/

/-- Origin ordering between two chunks of the same file `f`. -/
def chunkRel (f : Path) (c c' : Chunk) : Prop :=
  c.originFile = f → c'.originFile = f → c.originEnd ≤ c'.originStart

/-- The per-chunk invariant maintained while walking file `f`'s items in
window `[lo, hi]` with expansion stack `stack` and starting expanded set
`ex0`: chunks of `f` itself sit inside the window; chunks of other files
come from includes, whose files are neither on the stack nor previously
expanded; `Verbatim` chunks exist only in a `Verbatim` walk, belong to
`f`, and are length-preserving. -/
def ChunkGood (k : SegKind) (f : Path) (stack ex0 : List Path) (lo hi : Nat) (c : Chunk) :
    Prop :=
  (c.originFile = f → lo ≤ c.originStart ∧ c.originStart ≤ c.originEnd ∧ c.originEnd ≤ hi) ∧
  (c.originFile ≠ f → c.originFile ∉ stack ∧ c.originFile ∉ ex0) ∧
  (c.kind = .Verbatim →
    k = .Verbatim ∧ c.originFile = f ∧ c.originStart + c.data.length = c.originEnd)

/-- Distinct workspace files not yet on the expansion stack: the measure
that bounds expansion depth. -/
def cntFree (fs : FS) (stack : List Path) : Nat :=
  (((fs.map Prod.fst).dedup).filter (fun p => decide (p ∉ stack))).length

/-- The relation between an old and a new mapping segment after an edit
of file `root` that removed `a` original bytes and inserted `b` bytes
before both segments' regions: generated positions shift by the length
delta, original positions shift likewise for segments of `root` and stay
put for segments of other (included) files; everything else is equal. -/
def SegShift (root : Path) (a b : Nat) (s s' : MappingSegment) : Prop :=
  s'.genStart + a = s.genStart + b ∧ s'.genEnd + a = s.genEnd + b ∧
  s'.originFile = s.originFile ∧ s'.kind = s.kind ∧
  (s.originFile = root → s'.originStart + a = s.originStart + b ∧
    s'.originEnd + a = s.originEnd + b) ∧
  (s.originFile ≠ root → s'.originStart = s.originStart ∧ s'.originEnd = s.originEnd)

/-- The chunk-level analogue of `SegShift`: same data and kind, original
positions shifted for chunks of `f`, untouched for other files. -/
def ChunkShift (f : Path) (a b : Nat) (c c' : Chunk) : Prop :=
  c'.data = c.data ∧ c'.kind = c.kind ∧ c'.originFile = c.originFile ∧
  (c.originFile = f → c'.originStart + a = c.originStart + b ∧
    c'.originEnd + a = c.originEnd + b) ∧
  (c.originFile ≠ f → c'.originStart = c.originStart ∧ c'.originEnd = c.originEnd)

/-! ## Concrete example workspace (used to witness the theorems) -/

/-- Example preamble file path. -/
def exPre : Path := ["pre.js".toList]

/-- Example utility file path. -/
def exU : Path := ["u.js".toList]

/-- Example root file path. -/
def exA : Path := ["a.js".toList]

/-- A small workspace exercising includes (duplicate, via `./` and
workspace-root forms), a `#text` block and plain text. -/
def exFS : FS :=
  [(exPre, ["// p".toList]),
   (exU, ["u()".toList]),
   (exA, ["#include <./u.js>".toList,
          "#include <u.js>".toList,
          "hi".toList,
          "#text".toList,
          "T".toList,
          "#endtext".toList,
          "bye".toList])]

/-- The generated document of the example workspace. -/
def exDocA : GenDoc := (bundleDoc exFS exPre exA).toOption.getD ⟨[], [], 0, []⟩

/-- A workspace whose root file has an unterminated `#text` block. -/
def exBadFS : FS := [(exPre, ["// p".toList]), (exA, ["#text".toList, "x".toList])]

/-- A second file path for the cycle example. -/
def exB : Path := ["b.js".toList]

/-- A workspace with mutually-including files `a.js` and `b.js`. -/
def exCycFS : FS :=
  [(exPre, ["// p".toList]),
   (exA, ["#include <b.js>".toList]),
   (exB, ["#include <a.js>".toList])]

/-- The root file's lines in the example workspace (as stored in `exFS`). -/
def exALines : List Line :=
  ["#include <./u.js>".toList, "#include <u.js>".toList, "hi".toList,
   "#text".toList, "T".toList, "#endtext".toList, "bye".toList]

/-- The root file's lines after an edit confined to the `#text` interior
(content line `T` replaced by `TT`). -/
def exALines2 : List Line :=
  ["#include <./u.js>".toList, "#include <u.js>".toList, "hi".toList,
   "#text".toList, "TT".toList, "#endtext".toList, "bye".toList]

/-- Parsed items of the example root file before its `#text` block. -/
def exI1 : List PItem :=
  [.includeDir "#include <./u.js>".toList "./u.js".toList,
   .includeDir "#include <u.js>".toList "u.js".toList,
   .plain "hi".toList]

/-- Parsed items of the example root file after its `#text` block. -/
def exI2 : List PItem := [.plain "bye".toList]

/-- The example `#text` opener line. -/
def exRo : Line := "#text".toList

/-- The example `#endtext` closer line. -/
def exRc : Line := "#endtext".toList

/-- The example `#text` block content before the edit. -/
def exC : List Line := ["T".toList]

/-- The example `#text` block content after the edit. -/
def exC2 : List Line := ["TT".toList]

/-- The chunk list of the example bundle. -/
def exCS : List Chunk := (bundleChunks exFS exPre exA).toOption.getD []

/-! ## Generic lemmas about emitted text and segment tables -/

theorem origText_length (ls : List Line) : (origText ls).length = totalLen ls := by
  induction ls with
  | nil => rfl
  | cons l ls ih =>
    simp [origText, totalLen, lineLen] at ih ⊢
    omega

theorem emit_nil : emit [] = [] := rfl

theorem emit_cons (c : Chunk) (cs : List Chunk) : emit (c :: cs) = c.data ++ emit cs := rfl

theorem emit_append (xs ys : List Chunk) : emit (xs ++ ys) = emit xs ++ emit ys := by
  simp [emit]

theorem segsFrom_append (pos : Nat) (xs ys : List Chunk) :
    segsFrom pos (xs ++ ys) = segsFrom pos xs ++ segsFrom (pos + (emit xs).length) ys := by
  induction xs generalizing pos with
  | nil => simp [segsFrom, emit]
  | cons c cs ih =>
    simp [segsFrom, emit_cons, ih, Nat.add_assoc]

theorem mem_segsFrom {s : MappingSegment} {pos : Nat} {cs : List Chunk}
    (h : s ∈ segsFrom pos cs) :
    ∃ c ∈ cs, s.originFile = c.originFile ∧ s.originStart = c.originStart ∧
      s.originEnd = c.originEnd ∧ s.kind = c.kind ∧ s.genEnd = s.genStart + c.data.length := by
  induction cs generalizing pos with
  | nil => cases h
  | cons c cs ih =>
    simp only [segsFrom, List.mem_cons] at h
    rcases h with h | h
    · exact ⟨c, List.mem_cons_self _ _, by simp [h, mkSeg]⟩
    · obtain ⟨c', hc', hrest⟩ := ih h
      exact ⟨c', List.mem_cons_of_mem _ hc', hrest⟩

theorem segsFrom_ge {pos : Nat} {cs : List Chunk} :
    ∀ s ∈ segsFrom pos cs, pos ≤ s.genStart ∧ s.genStart ≤ s.genEnd := by
  induction cs generalizing pos with
  | nil => intro s h; cases h
  | cons c cs ih =>
    intro s h
    simp only [segsFrom, List.mem_cons] at h
    rcases h with h | h
    · subst h; simp [mkSeg]
    · have := ih s h
      omega

theorem segsFrom_pairwise_gen (pos : Nat) (cs : List Chunk) :
    List.Pairwise (fun s t => s.genEnd ≤ t.genStart) (segsFrom pos cs) := by
  induction cs generalizing pos with
  | nil => exact List.Pairwise.nil
  | cons c cs ih =>
    refine List.Pairwise.cons ?_ (ih _)
    intro t ht
    have := (segsFrom_ge t ht).1
    simp only [mkSeg]
    omega

theorem segsFrom_cover {pos g : Nat} {cs : List Chunk}
    (h1 : pos ≤ g) (h2 : g < pos + (emit cs).length) :
    ∃ s ∈ segsFrom pos cs, s.genStart ≤ g ∧ g < s.genEnd := by
  induction cs generalizing pos with
  | nil => simp [emit] at h2; omega
  | cons c cs ih =>
    by_cases hc : g < pos + c.data.length
    · exact ⟨mkSeg pos c, List.mem_cons_self _ _, by simpa [mkSeg] using ⟨h1, hc⟩⟩
    · push_neg at hc
      have h2' : g < pos + c.data.length + (emit cs).length := by
        simpa [emit_cons, Nat.add_assoc] using h2
      obtain ⟨s, hs, hcov⟩ := ih hc h2'
      exact ⟨s, List.mem_cons_of_mem _ hs, hcov⟩

theorem exists_of_mem_segsFrom {s : MappingSegment} {pos : Nat} {cs : List Chunk}
    (h : s ∈ segsFrom pos cs) : ∃ q c', c' ∈ cs ∧ s = mkSeg q c' := by
  induction cs generalizing pos with
  | nil => cases h
  | cons d ds ihd =>
    simp only [segsFrom, List.mem_cons] at h
    rcases h with h | h
    · exact ⟨_, d, List.mem_cons_self _ _, h⟩
    · obtain ⟨q, c', hm, he⟩ := ihd h
      exact ⟨q, c', List.mem_cons_of_mem _ hm, he⟩

theorem segsFrom_pairwise_of {R : Chunk → Chunk → Prop}
    {R' : MappingSegment → MappingSegment → Prop} {cs : List Chunk}
    (hR : ∀ p q c c', R c c' → R' (mkSeg p c) (mkSeg q c'))
    (h : List.Pairwise R cs) (pos : Nat) :
    List.Pairwise R' (segsFrom pos cs) := by
  induction cs generalizing pos with
  | nil => exact List.Pairwise.nil
  | cons c cs ih =>
    rcases List.pairwise_cons.mp h with ⟨hhead, htail⟩
    refine List.Pairwise.cons ?_ (ih htail _)
    intro t ht
    obtain ⟨q, c', hc', ht'⟩ := exists_of_mem_segsFrom ht
    subst ht'
    exact hR _ _ _ _ (hhead c' hc')

/-- The first list element satisfying `p`, when at most one does. -/
theorem find?_eq_of_pairwise {α : Type} {p : α → Bool} {l : List α} {a : α}
    (hpa : p a = true) (hm : a ∈ l)
    (hpw : List.Pairwise (fun x y => ¬(p x = true ∧ p y = true)) l) :
    l.find? p = some a := by
  induction l with
  | nil => cases hm
  | cons b l ih =>
    rcases List.pairwise_cons.mp hpw with ⟨hhead, htail⟩
    rcases List.mem_cons.mp hm with hab | hm'
    · subst hab; simp [List.find?, hpa]
    · have hpb : p b = false := by
        by_contra hb
        exact hhead a hm' ⟨eq_true_of_ne_false (fun h => hb h), hpa⟩
      simp [List.find?, hpb, ih hm' htail]

theorem unique_of_pairwise {α : Type} {p : α → Bool} {l : List α} {a b : α}
    (hpw : List.Pairwise (fun x y => ¬(p x = true ∧ p y = true)) l)
    (ha : a ∈ l) (hpa : p a = true) (hb : b ∈ l) (hpb : p b = true) : a = b := by
  have h1 := find?_eq_of_pairwise hpa ha hpw
  have h2 := find?_eq_of_pairwise hpb hb hpw
  rw [h1] at h2
  exact Option.some_injective _ h2

/-! ## Parser lemmas -/

theorem exceptMap_ok {α β ε : Type} {g : α → β} {e : Except ε α} {b : β}
    (h : e.map g = .ok b) : ∃ a, e = .ok a ∧ b = g a := by
  cases e with
  | error err => simp [Except.map] at h
  | ok a => exact ⟨a, rfl, by simpa [Except.map] using h.symm⟩

theorem exceptMap_error {α β ε : Type} {g : α → β} {e : Except ε α} {err : ε}
    (h : e.map g = .error err) : e = .error err := by
  cases e with
  | error err' => simpa [Except.map] using h
  | ok a => simp [Except.map] at h

/-- The parsed items of a file consume exactly its byte extent. -/
theorem parseGo_len :
    ∀ (ls : List Line) (mode : Option (Nat × Line × List Line)) (idx : Nat) (items : List PItem),
      parseGo mode idx ls = .ok items →
      itemsLen items =
        (match mode with
         | none => totalLen ls
         | some (_, ro, acc) => lineLen ro + totalLen acc + totalLen ls) := by
  intro ls
  induction ls with
  | nil =>
    intro mode idx items h
    match mode with
    | none =>
      simp only [parseGo] at h
      cases h
      simp [itemsLen, totalLen]
    | some (oi, ro, acc) => simp [parseGo] at h
  | cons l ls ih =>
    intro mode idx items h
    match mode with
    | none =>
      simp only [parseGo] at h
      by_cases hop : isTextOpen l
      · rw [if_pos hop] at h
        have hlen := ih _ _ _ h
        simp only at hlen
        simp only [totalLen, List.map_cons, List.sum_cons, List.map_nil, List.sum_nil] at hlen ⊢
        omega
      · rw [if_neg hop] at h
        rcases hinc : isIncludeLine l with _ | ⟨p, rest⟩
        · rw [hinc] at h
          rcases himp : isImportLine l with _ | p
          · rw [himp] at h
            obtain ⟨items', h', he⟩ := exceptMap_ok h
            have hlen := ih _ _ _ h'
            simp only at hlen
            subst he
            simp only [itemsLen, totalLen, List.map_cons, List.sum_cons, itemLen] at hlen ⊢
            omega
          · rw [himp] at h
            obtain ⟨items', h', he⟩ := exceptMap_ok h
            have hlen := ih _ _ _ h'
            simp only at hlen
            subst he
            simp only [itemsLen, totalLen, List.map_cons, List.sum_cons, itemLen] at hlen ⊢
            omega
        · rw [hinc] at h
          obtain ⟨items', h', he⟩ := exceptMap_ok h
          have hlen := ih _ _ _ h'
          simp only at hlen
          subst he
          simp only [itemsLen, totalLen, List.map_cons, List.sum_cons, itemLen] at hlen ⊢
          omega
    | some (oi, ro, acc) =>
      simp only [parseGo] at h
      by_cases hend : isTextEnd l
      · rw [if_pos hend] at h
        obtain ⟨items', h', he⟩ := exceptMap_ok h
        have hlen := ih _ _ _ h'
        simp only at hlen
        subst he
        simp only [itemsLen, totalLen, List.map_cons, List.sum_cons, itemLen] at hlen ⊢
        omega
      · rw [if_neg hend] at h
        have hlen := ih _ _ _ h
        simp only at hlen
        simp only [totalLen, List.map_cons, List.sum_cons, List.map_append, List.sum_append,
          List.map_nil, List.sum_nil] at hlen ⊢
        omega

/-- An `UnterminatedTextBlock i` error pinpoints an unmatched `#text`
opener: either the block already open when scanning started (first
disjunct), or the opener is line `d` of the scanned lines, with no
`#endtext` anywhere after it. -/
theorem parseGo_unterminated :
    ∀ (ls : List Line) (mode : Option (Nat × Line × List Line)) (idx i : Nat),
      parseGo mode idx ls = .error (.unterminatedTextBlock i) →
      (∃ ro acc, mode = some (i, ro, acc) ∧ textEndMarker ∉ ls)
      ∨ (∃ d, ∃ hd : d < ls.length, idx + d = i ∧ ls.get ⟨d, hd⟩ = textOpenMarker ∧
          textEndMarker ∉ ls.drop (d + 1)) := by
  intro ls
  induction ls with
  | nil =>
    intro mode idx i h
    match mode with
    | none => simp [parseGo] at h
    | some (oi, ro, acc) =>
      simp only [parseGo, Except.error.injEq, GlError.unterminatedTextBlock.injEq] at h
      exact Or.inl ⟨ro, acc, by rw [h], by simp⟩
  | cons l ls ih =>
    intro mode idx i h
    match mode with
    | none =>
      simp only [parseGo] at h
      by_cases hop : isTextOpen l
      · rw [if_pos hop] at h
        rcases ih _ _ _ h with ⟨ro, acc, hmode, hne⟩ | ⟨d, hd, hi, hget, hne⟩
        · obtain ⟨h1, _⟩ := Option.some_injective _ hmode
          refine Or.inr ⟨0, by simp, ?_, ?_, ?_⟩
          · simp
          · simpa [isTextOpen] using hop
          · simpa using hne
        · refine Or.inr ⟨d + 1, by simpa using Nat.succ_lt_succ hd, by omega, ?_, ?_⟩
          · simpa using hget
          · simpa using hne
      · rw [if_neg hop] at h
        have step : parseGo none (idx + 1) ls = .error (.unterminatedTextBlock i) := by
          rcases hinc : isIncludeLine l with _ | ⟨p, rest⟩
          · rw [hinc] at h
            rcases himp : isImportLine l with _ | p
            · rw [himp] at h; exact exceptMap_error h
            · rw [himp] at h; exact exceptMap_error h
          · rw [hinc] at h; exact exceptMap_error h
        rcases ih _ _ _ step with ⟨ro, acc, hmode, _⟩ | ⟨d, hd, hi, hget, hne⟩
        · cases hmode
        · refine Or.inr ⟨d + 1, by simpa using Nat.succ_lt_succ hd, by omega, ?_, ?_⟩
          · simpa using hget
          · simpa using hne
    | some (oi, ro, acc) =>
      simp only [parseGo] at h
      by_cases hend : isTextEnd l
      · rw [if_pos hend] at h
        have step : parseGo none (idx + 1) ls = .error (.unterminatedTextBlock i) :=
          exceptMap_error h
        rcases ih _ _ _ step with ⟨ro', acc', hmode, _⟩ | ⟨d, hd, hi, hget, hne⟩
        · cases hmode
        · refine Or.inr ⟨d + 1, by simpa using Nat.succ_lt_succ hd, by omega, ?_, ?_⟩
          · simpa using hget
          · simpa using hne
      · rw [if_neg hend] at h
        rcases ih _ _ _ h with ⟨ro', acc', hmode, hne⟩ | ⟨d, hd, hi, hget, hne⟩
        · simp only [Option.some.injEq, Prod.mk.injEq] at hmode
          refine Or.inl ⟨ro, acc, by rw [hmode.1], ?_⟩
          intro hmem
          rcases List.mem_cons.mp hmem with h0 | h0
          · exact hend (by simpa [isTextEnd] using h0.symm)
          · exact hne h0
        · refine Or.inr ⟨d + 1, by simpa using Nat.succ_lt_succ hd, by omega, ?_, ?_⟩
          · simpa using hget
          · simpa using hne

/-! ## Expansion-structure lemmas -/

theorem itemsLen_cons (x : PItem) (xs : List PItem) :
    itemsLen (x :: xs) = itemLen x + itemsLen xs := by
  simp [itemsLen]

theorem itemsLen_append (xs ys : List PItem) :
    itemsLen (xs ++ ys) = itemsLen xs + itemsLen ys := by
  simp [itemsLen]

/-- Walking `xs ++ ys` is walking `xs`, then walking `ys` from the
advanced offset and the accumulated expanded set. -/
theorem itemsWith_append (rcall : SegKind → Path → List Path → ExpRes) (k : SegKind) (f : Path) :
    ∀ (xs ys : List PItem) (o : Nat) (ex : List Path),
      expandItemsWith rcall k f (xs ++ ys) o ex =
        (match expandItemsWith rcall k f xs o ex with
         | .error err => .error err
         | .ok (c1, e1) =>
           match expandItemsWith rcall k f ys (o + itemsLen xs) e1 with
           | .error err => .error err
           | .ok (c2, e2) => .ok (c1 ++ c2, e2)) := by
  intro xs
  induction xs with
  | nil =>
    intro ys o ex
    simp only [List.nil_append, expandItemsWith, itemsLen, List.map_nil, List.sum_nil,
      Nat.add_zero]
    cases h : expandItemsWith rcall k f ys o ex with
    | error err => rfl
    | ok pr => cases pr; rfl
  | cons x xs ih =>
    intro ys o ex
    cases x with
    | plain l =>
      simp only [List.cons_append, expandItemsWith, List.append_eq]
      rw [ih]
      cases h1 : expandItemsWith rcall k f xs (o + lineLen l) ex with
      | error err => rfl
      | ok pr =>
        obtain ⟨c1, e1⟩ := pr
        dsimp only
        have hoff : o + lineLen l + itemsLen xs = o + itemsLen (PItem.plain l :: xs) := by
          rw [itemsLen_cons, itemLen]; omega
        rw [hoff]
        cases h2 : expandItemsWith rcall k f ys (o + itemsLen (PItem.plain l :: xs)) e1 with
        | error err => rfl
        | ok pr2 => cases pr2; rfl
    | includeDir raw p =>
      simp only [List.cons_append, expandItemsWith, List.append_eq]
      cases hrc : rcall (childKind k) (resolvePath (dirOf f) p) ex with
      | error err => rfl
      | ok pr0 =>
        obtain ⟨tc, e1⟩ := pr0
        dsimp only
        rw [ih]
        cases h1 : expandItemsWith rcall k f xs (o + lineLen raw) e1 with
        | error err => rfl
        | ok pr =>
          obtain ⟨c1, e2⟩ := pr
          dsimp only
          have hoff : o + lineLen raw + itemsLen xs = o + itemsLen (PItem.includeDir raw p :: xs) := by
            rw [itemsLen_cons, itemLen]; omega
          rw [hoff]
          cases h2 : expandItemsWith rcall k f ys (o + itemsLen (PItem.includeDir raw p :: xs)) e2 with
          | error err => rfl
          | ok pr2 => cases pr2; simp [List.append_assoc]
    | textBlock ro c rc =>
      simp only [List.cons_append, expandItemsWith, List.append_eq]
      rw [ih]
      cases h1 : expandItemsWith rcall k f xs (o + itemLen (PItem.textBlock ro c rc)) ex with
      | error err => rfl
      | ok pr =>
        obtain ⟨c1, e1⟩ := pr
        dsimp only
        have hoff : o + itemLen (PItem.textBlock ro c rc) + itemsLen xs
            = o + itemsLen (PItem.textBlock ro c rc :: xs) := by
          rw [itemsLen_cons]; omega
        rw [hoff]
        cases h2 : expandItemsWith rcall k f ys (o + itemsLen (PItem.textBlock ro c rc :: xs)) e1 with
        | error err => rfl
        | ok pr2 => cases pr2; simp [List.append_assoc]

/-- Success form of `itemsWith_append`. -/
theorem itemsWith_append_ok {rcall : SegKind → Path → List Path → ExpRes} {k : SegKind} {f : Path}
    {xs ys : List PItem} {o : Nat} {ex : List Path} {cs : List Chunk} {e' : List Path}
    (h : expandItemsWith rcall k f (xs ++ ys) o ex = .ok (cs, e')) :
    ∃ c1 e1 c2, expandItemsWith rcall k f xs o ex = .ok (c1, e1) ∧
      expandItemsWith rcall k f ys (o + itemsLen xs) e1 = .ok (c2, e') ∧ cs = c1 ++ c2 := by
  rw [itemsWith_append] at h
  cases h1 : expandItemsWith rcall k f xs o ex with
  | error err => rw [h1] at h; cases h
  | ok pr =>
    obtain ⟨c1, e1⟩ := pr
    rw [h1] at h
    dsimp only at h
    cases h2 : expandItemsWith rcall k f ys (o + itemsLen xs) e1 with
    | error err => rw [h2] at h; cases h
    | ok pr2 =>
      obtain ⟨c2, e2⟩ := pr2
      rw [h2] at h
      simp only [Except.ok.injEq, Prod.mk.injEq] at h
      exact ⟨c1, e1, c2, rfl, by rw [h2, h.2], h.1.symm⟩

/-- Error-propagation form of `itemsWith_append`: if the prefix walks
fine but the suffix fails, the whole walk fails the same way. -/
theorem itemsWith_append_error {rcall : SegKind → Path → List Path → ExpRes} {k : SegKind}
    {f : Path} {xs ys : List PItem} {o : Nat} {ex : List Path} {c1 : List Chunk}
    {e1 : List Path} {err : GlError}
    (h1 : expandItemsWith rcall k f xs o ex = .ok (c1, e1))
    (h2 : expandItemsWith rcall k f ys (o + itemsLen xs) e1 = .error err) :
    expandItemsWith rcall k f (xs ++ ys) o ex = .error err := by
  rw [itemsWith_append, h1]
  dsimp only
  rw [h2]

theorem ChunkGood.mono {k : SegKind} {f : Path} {stack ex ex' : List Path}
    {lo lo' hi hi' : Nat} {c : Chunk} (h : ChunkGood k f stack ex' lo' hi' c)
    (hex : ex ⊆ ex') (hlo : lo ≤ lo') (hhi : hi' ≤ hi) : ChunkGood k f stack ex lo hi c := by
  obtain ⟨h1, h2, h3⟩ := h
  refine ⟨fun hc => ?_, fun hc => ⟨(h2 hc).1, fun hm => (h2 hc).2 (hex hm)⟩, h3⟩
  have := h1 hc
  omega

theorem pairwise_chunkRel_of_ne {f : Path} {l : List Chunk}
    (h : ∀ c ∈ l, c.originFile ≠ f) : List.Pairwise (chunkRel f) l := by
  induction l with
  | nil => exact List.Pairwise.nil
  | cons c cs ih =>
    refine List.Pairwise.cons (fun c' _ hcf _ => ?_) (ih (fun c hc => h c (List.mem_cons_of_mem _ hc)))
    exact absurd hcf (h c (List.mem_cons_self _ _))

theorem childKind_ne_verbatim (k : SegKind) : childKind k ≠ .Verbatim := by
  cases k <;> simp [childKind]

/-- Expanded sets only grow while walking items (subset part only; no
assumption on the walk's kind). -/
theorem itemsWith_subset {rcall : SegKind → Path → List Path → ExpRes} {k : SegKind} {f : Path}
    (hrec : ∀ k' t' e2 cs2 e3, rcall k' t' e2 = .ok (cs2, e3) → e2 ⊆ e3) :
    ∀ (items : List PItem) (o : Nat) (ex : List Path) (cs : List Chunk) (e' : List Path),
      expandItemsWith rcall k f items o ex = .ok (cs, e') → ex ⊆ e' := by
  intro items
  induction items with
  | nil =>
    intro o ex cs e' h
    simp only [expandItemsWith, Except.ok.injEq, Prod.mk.injEq] at h
    rw [← h.2]
    exact List.Subset.refl _
  | cons x xs ih =>
    intro o ex cs e' h
    cases x with
    | plain l =>
      simp only [expandItemsWith] at h
      cases hr : expandItemsWith rcall k f xs (o + lineLen l) ex with
      | error err => rw [hr] at h; cases h
      | ok pr =>
        obtain ⟨cs1, e1⟩ := pr
        rw [hr] at h
        simp only [Except.ok.injEq, Prod.mk.injEq] at h
        rw [← h.2]
        exact ih _ _ _ _ hr
    | includeDir raw p =>
      simp only [expandItemsWith] at h
      cases hrc : rcall (childKind k) (resolvePath (dirOf f) p) ex with
      | error err => rw [hrc] at h; cases h
      | ok pr0 =>
        obtain ⟨tc, e1⟩ := pr0
        rw [hrc] at h
        dsimp only at h
        cases hr : expandItemsWith rcall k f xs (o + lineLen raw) e1 with
        | error err => rw [hr] at h; cases h
        | ok pr =>
          obtain ⟨cs1, e2⟩ := pr
          rw [hr] at h
          simp only [Except.ok.injEq, Prod.mk.injEq] at h
          rw [← h.2]
          exact (hrec _ _ _ _ _ hrc).trans (ih _ _ _ _ hr)
    | textBlock ro c rc =>
      simp only [expandItemsWith] at h
      cases hr : expandItemsWith rcall k f xs (o + itemLen (PItem.textBlock ro c rc)) ex with
      | error err => rw [hr] at h; cases h
      | ok pr =>
        obtain ⟨cs1, e1⟩ := pr
        rw [hr] at h
        simp only [Except.ok.injEq, Prod.mk.injEq] at h
        rw [← h.2]
        exact ih _ _ _ _ hr

/-- Expanded sets only grow across a target expansion, and a successfully
expanded target ends up in the expanded set. -/
theorem target_sub_mem (fs : FS) :
    ∀ (fuel : Nat) (stack : List Path) (k : SegKind) (t : Path) (ex : List Path)
      (cs : List Chunk) (e' : List Path),
      expandTarget fs fuel stack k t ex = .ok (cs, e') → ex ⊆ e' ∧ t ∈ e' := by
  intro fuel
  induction fuel with
  | zero => intro stack k t ex cs e' h; simp [expandTarget] at h
  | succ n ih =>
    intro stack k t ex cs e' h
    simp only [expandTarget] at h
    by_cases hst : t ∈ stack
    · rw [if_pos hst] at h; cases h
    · rw [if_neg hst] at h
      by_cases hex : t ∈ ex
      · rw [if_pos hex] at h
        simp only [Except.ok.injEq, Prod.mk.injEq] at h
        rw [← h.2]
        exact ⟨List.Subset.refl _, hex⟩
      · rw [if_neg hex] at h
        cases hlk : lookupFS fs t with
        | none => rw [hlk] at h; cases h
        | some lines =>
          rw [hlk] at h
          dsimp only at h
          cases hp : parseLines lines with
          | error e => rw [hp] at h; cases h
          | ok items =>
            rw [hp] at h
            dsimp only at h
            have hsub := itemsWith_subset
              (fun k' t' e2 cs2 e3 hcall => (ih (t :: stack) k' t' e2 cs2 e3 hcall).1)
              items 0 (t :: ex) cs e' h
            exact ⟨(List.subset_cons_self t ex).trans hsub, hsub (List.mem_cons_self _ _)⟩

/-- The main structural invariant of walking file `f`'s items: the
expanded set grows, every produced chunk is `ChunkGood`, and the chunks
of `f` appear in increasing original order. -/
theorem itemsWith_inv {rcall : SegKind → Path → List Path → ExpRes} {k : SegKind} {f : Path}
    {stack : List Path} (hf : f ∈ stack)
    (hrec : ∀ t' e2 cs2 e3, rcall (childKind k) t' e2 = .ok (cs2, e3) →
      e2 ⊆ e3 ∧ ∀ c ∈ cs2, c.originFile ∉ stack ∧ c.originFile ∉ e2 ∧ c.kind ≠ .Verbatim) :
    ∀ (items : List PItem) (o : Nat) (ex : List Path) (cs : List Chunk) (e' : List Path),
      expandItemsWith rcall k f items o ex = .ok (cs, e') →
      ex ⊆ e' ∧ (∀ c ∈ cs, ChunkGood k f stack ex o (o + itemsLen items) c) ∧
        List.Pairwise (chunkRel f) cs := by
  intro items
  induction items with
  | nil =>
    intro o ex cs e' h
    simp only [expandItemsWith, Except.ok.injEq, Prod.mk.injEq] at h
    refine ⟨?_, ?_, ?_⟩
    · rw [← h.2]; exact List.Subset.refl _
    · rw [← h.1]; intro c hc; cases hc
    · rw [← h.1]; exact List.Pairwise.nil
  | cons x xs ih =>
    intro o ex cs e' h
    cases x with
    | plain l =>
      simp only [expandItemsWith] at h
      cases hr : expandItemsWith rcall k f xs (o + lineLen l) ex with
      | error err => rw [hr] at h; cases h
      | ok pr =>
        obtain ⟨cs1, e1⟩ := pr
        rw [hr] at h
        simp only [Except.ok.injEq, Prod.mk.injEq] at h
        obtain ⟨hcs, he⟩ := h
        subst hcs
        subst he
        obtain ⟨ihsub, ihgood, ihpw⟩ := ih _ _ _ _ hr
        refine ⟨ihsub, ?_, ?_⟩
        · intro c hc
          rcases List.mem_cons.mp hc with rfl | hc'
          · refine ⟨fun _ => ?_, fun hne => absurd rfl hne, fun hkv => ?_⟩
            · simp only [plainChunk, itemsLen_cons, itemLen]
              omega
            · refine ⟨hkv, rfl, ?_⟩
              simp [plainChunk, lineLen]
          · exact (ihgood c hc').mono (List.Subset.refl _) (by omega)
              (by rw [itemsLen_cons, itemLen]; omega)
        · refine List.Pairwise.cons (fun c' hc' => ?_) ihpw
          intro _ h2
          have := ((ihgood c' hc').1 h2).1
          simp only [plainChunk]
          omega
    | includeDir raw p =>
      simp only [expandItemsWith] at h
      cases hrc : rcall (childKind k) (resolvePath (dirOf f) p) ex with
      | error err => rw [hrc] at h; cases h
      | ok pr0 =>
        obtain ⟨tc, e1⟩ := pr0
        rw [hrc] at h
        dsimp only at h
        cases hr : expandItemsWith rcall k f xs (o + lineLen raw) e1 with
        | error err => rw [hr] at h; cases h
        | ok pr =>
          obtain ⟨cs1, e2⟩ := pr
          rw [hr] at h
          simp only [Except.ok.injEq, Prod.mk.injEq] at h
          obtain ⟨hcs, he⟩ := h
          subst hcs
          subst he
          obtain ⟨hsub0, htc⟩ := hrec _ _ _ _ hrc
          obtain ⟨ihsub, ihgood, ihpw⟩ := ih _ _ _ _ hr
          have hne : ∀ c ∈ tc, c.originFile ≠ f := by
            intro c hc hcf
            exact (htc c hc).1 (by rw [hcf]; exact hf)
          refine ⟨hsub0.trans ihsub, ?_, ?_⟩
          · intro c hc
            rcases List.mem_append.mp hc with hc' | hc'
            · exact ⟨fun hcf => absurd hcf (hne c hc'),
                fun _ => ⟨(htc c hc').1, (htc c hc').2.1⟩,
                fun hkv => absurd hkv (htc c hc').2.2⟩
            · exact (ihgood c hc').mono hsub0 (by omega)
                (by rw [itemsLen_cons, itemLen]; omega)
          · rw [List.pairwise_append]
            refine ⟨pairwise_chunkRel_of_ne hne, ihpw, ?_⟩
            intro c hc c' hc' hcf
            exact absurd hcf (hne c hc)
    | textBlock ro c rc =>
      simp only [expandItemsWith] at h
      cases hr : expandItemsWith rcall k f xs (o + itemLen (PItem.textBlock ro c rc)) ex with
      | error err => rw [hr] at h; cases h
      | ok pr =>
        obtain ⟨cs1, e1⟩ := pr
        rw [hr] at h
        simp only [Except.ok.injEq, Prod.mk.injEq] at h
        obtain ⟨hcs, he⟩ := h
        subst hcs
        subst he
        obtain ⟨ihsub, ihgood, ihpw⟩ := ih _ _ _ _ hr
        have hiw : o + itemLen (PItem.textBlock ro c rc) + itemsLen xs
            = o + itemsLen (PItem.textBlock ro c rc :: xs) := by
          rw [itemsLen_cons]; omega
        have hgood3 : ∀ d ∈ tbChunks k f o ro c rc,
            ChunkGood k f stack ex o (o + itemsLen (PItem.textBlock ro c rc :: xs)) d := by
          intro d hd
          have hlen : itemLen (PItem.textBlock ro c rc) = lineLen ro + totalLen c + lineLen rc := rfl
          simp only [tbChunks, List.mem_cons, List.mem_singleton, List.not_mem_nil, or_false] at hd
          rcases hd with rfl | rfl | rfl
          · refine ⟨fun _ => ?_, fun hne => absurd rfl hne, fun hkv => by simp at hkv⟩
            rw [itemsLen_cons, hlen]
            dsimp only
            omega
          · refine ⟨fun _ => ?_, fun hne => absurd rfl hne, fun hkv => ?_⟩
            · rw [itemsLen_cons, hlen]
              dsimp only
              omega
            · dsimp only at hkv ⊢
              exact ⟨hkv, rfl, by rw [origText_length]⟩
          · refine ⟨fun _ => ?_, fun hne => absurd rfl hne, fun hkv => by simp at hkv⟩
            rw [itemsLen_cons, hlen]
            dsimp only
            omega
        refine ⟨ihsub, ?_, ?_⟩
        · intro d hd
          rcases List.mem_append.mp hd with hd' | hd'
          · exact hgood3 d hd'
          · exact (ihgood d hd').mono (List.Subset.refl _) (by omega) (by rw [hiw])
        · rw [List.pairwise_append]
          refine ⟨?_, ihpw, ?_⟩
          · simp only [tbChunks]
            refine List.Pairwise.cons ?_ (List.Pairwise.cons ?_ (List.Pairwise.cons ?_ List.Pairwise.nil))
            · intro d hd
              simp only [List.mem_cons, List.mem_singleton, List.not_mem_nil, or_false] at hd
              rcases hd with rfl | rfl <;> · intro _ _; dsimp only; omega
            · intro d hd
              simp only [List.mem_singleton, List.mem_cons, List.not_mem_nil, or_false] at hd
              subst hd
              intro _ _; dsimp only; omega
            · intro d hd; cases hd
          · intro d hd d' hd' h1 h2
            have hstart := ((ihgood d' hd').1 h2).1
            have hlen2 : itemLen (PItem.textBlock ro c rc) = lineLen ro + totalLen c + lineLen rc :=
              rfl
            rw [hlen2] at hstart
            simp only [tbChunks, List.mem_cons, List.mem_singleton, List.not_mem_nil, or_false] at hd
            rcases hd with rfl | rfl | rfl <;> dsimp only <;> omega

/-- The target-expansion invariant: expansion only produces chunks of
files that were neither on the stack nor already expanded, and (outside
a `Verbatim` walk) no `Verbatim` chunks. -/
theorem target_inv (fs : FS) :
    ∀ (fuel : Nat) (stack : List Path) (k : SegKind) (t : Path) (ex : List Path)
      (cs : List Chunk) (e' : List Path),
      k ≠ .Verbatim →
      expandTarget fs fuel stack k t ex = .ok (cs, e') →
      ex ⊆ e' ∧ ∀ c ∈ cs, c.originFile ∉ stack ∧ c.originFile ∉ ex ∧ c.kind ≠ .Verbatim := by
  intro fuel
  induction fuel with
  | zero => intro stack k t ex cs e' hk h; simp [expandTarget] at h
  | succ n ih =>
    intro stack k t ex cs e' hk h
    simp only [expandTarget] at h
    by_cases hst : t ∈ stack
    · rw [if_pos hst] at h; cases h
    · rw [if_neg hst] at h
      by_cases hex : t ∈ ex
      · rw [if_pos hex] at h
        simp only [Except.ok.injEq, Prod.mk.injEq] at h
        refine ⟨by rw [← h.2]; exact List.Subset.refl _, ?_⟩
        rw [← h.1]
        intro c hc; cases hc
      · rw [if_neg hex] at h
        cases hlk : lookupFS fs t with
        | none => rw [hlk] at h; cases h
        | some lines =>
          rw [hlk] at h
          dsimp only at h
          cases hp : parseLines lines with
          | error e => rw [hp] at h; cases h
          | ok items =>
            rw [hp] at h
            dsimp only at h
            have hfmem : t ∈ t :: stack := List.mem_cons_self _ _
            have hrec : ∀ t' e2 cs2 e3,
                expandTarget fs n (t :: stack) (childKind k) t' e2 = .ok (cs2, e3) →
                e2 ⊆ e3 ∧ ∀ c ∈ cs2,
                  c.originFile ∉ t :: stack ∧ c.originFile ∉ e2 ∧ c.kind ≠ .Verbatim :=
              fun t' e2 cs2 e3 hcall =>
                ih (t :: stack) (childKind k) t' e2 cs2 e3 (childKind_ne_verbatim k) hcall
            obtain ⟨hsub, hgood, _⟩ := itemsWith_inv hfmem hrec items 0 (t :: ex) cs e' h
            refine ⟨(List.subset_cons_self t ex).trans hsub, ?_⟩
            intro c hc
            by_cases hcf : c.originFile = t
            · refine ⟨by rw [hcf]; exact hst, by rw [hcf]; exact hex, fun hkv => ?_⟩
              exact hk ((hgood c hc).2.2 hkv).1
            · have h2 := (hgood c hc).2.1 hcf
              refine ⟨fun hm => h2.1 (List.mem_cons_of_mem _ hm),
                fun hm => h2.2 (List.mem_cons_of_mem _ hm), fun hkv => ?_⟩
              exact hcf ((hgood c hc).2.2 hkv).2.1

/-! ## Bundle-level facts -/

/-- Unfolding of a successful bundle into its constituent runs. -/
theorem bundle_inv {fs : FS} {pre root : Path} {cs : List Chunk}
    (h : bundleChunks fs pre root = .ok cs) :
    ∃ lines items pc e1 own e2,
      lookupFS fs root = some lines ∧ parseLines lines = .ok items ∧
      expandTarget fs (bundleFuel fs) [root] .InjectedPreamble pre [root] = .ok (pc, e1) ∧
      expandItemsWith (fun k' t' e' => expandTarget fs (bundleFuel fs) [root] k' t' e')
        .Verbatim root items 0 e1 = .ok (own, e2) ∧
      cs = pc ++ own := by
  unfold bundleChunks at h
  cases hlk : lookupFS fs root with
  | none => rw [hlk] at h; cases h
  | some lines =>
    rw [hlk] at h
    dsimp only at h
    cases hp : parseLines lines with
    | error e => rw [hp] at h; cases h
    | ok items =>
      rw [hp] at h
      dsimp only at h
      cases hpre : expandTarget fs (bundleFuel fs) [root] .InjectedPreamble pre [root] with
      | error e => rw [hpre] at h; cases h
      | ok pr =>
        obtain ⟨pc, e1⟩ := pr
        rw [hpre] at h
        dsimp only at h
        cases hown : expandItemsWith
            (fun k' t' e' => expandTarget fs (bundleFuel fs) [root] k' t' e')
            .Verbatim root items 0 e1 with
        | error e => rw [hown] at h; cases h
        | ok pr2 =>
          obtain ⟨own, e2⟩ := pr2
          rw [hown] at h
          simp only [Except.ok.injEq] at h
          refine ⟨lines, items, pc, e1, own, e2, ?_, ?_, ?_, ?_, h.symm⟩ <;>
            first
            | exact hlk
            | exact hp
            | exact hpre
            | exact hown
            | rfl

/-- Facts about the chunk list of a successful bundle: `Verbatim` chunks
belong to the root file, are length-preserving and sit inside the root's
byte extent; the chunks of the root file appear in increasing original
order. -/
theorem bundle_chunk_facts {fs : FS} {pre root : Path} {cs : List Chunk}
    (h : bundleChunks fs pre root = .ok cs) :
    ∃ lines, lookupFS fs root = some lines ∧
      (∀ c ∈ cs, c.kind = .Verbatim →
        c.originFile = root ∧ c.originStart + c.data.length = c.originEnd ∧
        c.originEnd ≤ totalLen lines) ∧
      List.Pairwise (chunkRel root) cs := by
  obtain ⟨lines, items, pc, e1, own, e2, hlk, hp, hpre, hown, hcs⟩ := bundle_inv h
  have hpcfacts := target_inv fs (bundleFuel fs) [root] .InjectedPreamble pre [root] pc e1
    (by simp) hpre
  have hrec : ∀ t' e3 cs2 e4,
      expandTarget fs (bundleFuel fs) [root] (childKind .Verbatim) t' e3 = .ok (cs2, e4) →
      e3 ⊆ e4 ∧ ∀ c ∈ cs2,
        c.originFile ∉ [root] ∧ c.originFile ∉ e3 ∧ c.kind ≠ .Verbatim :=
    fun t' e3 cs2 e4 hcall =>
      target_inv fs (bundleFuel fs) [root] (childKind .Verbatim) t' e3 cs2 e4
        (childKind_ne_verbatim _) hcall
  obtain ⟨_, hgood, hpw⟩ :=
    itemsWith_inv (List.mem_cons_self root []) hrec items 0 e1 own e2 hown
  have hitems : itemsLen items = totalLen lines := parseGo_len lines none 0 items hp
  have hpcne : ∀ c ∈ pc, c.originFile ≠ root := by
    intro c hc hcf
    exact (hpcfacts.2 c hc).1 (by rw [hcf]; exact List.mem_cons_self _ _)
  refine ⟨lines, hlk, ?_, ?_⟩
  · intro c hc hkv
    rw [hcs] at hc
    rcases List.mem_append.mp hc with hc' | hc'
    · exact absurd hkv (hpcfacts.2 c hc').2.2
    · have h3 := (hgood c hc').2.2 hkv
      have h1 := (hgood c hc').1 h3.2.1
      exact ⟨h3.2.1, h3.2.2, by omega⟩
  · rw [hcs]
    rw [List.pairwise_append]
    refine ⟨pairwise_chunkRel_of_ne hpcne, hpw, ?_⟩
    intro c hc c' hc' hcf
    exact absurd hcf (hpcne c hc)

/-! ## Claim C1: mapping segments partition the generated text -/

/-- C1: for every GeneratedDocument produced by the Bundler, the ordered
mapping-segment table partitions the generated text exactly: every offset
in `[0, len(generatedText))` lies in exactly one segment, with no gaps
and no overlaps. -/
theorem C1_partition {fs : FS} {pre root : Path} {gd : GenDoc}
    (h : bundleDoc fs pre root = .ok gd) :
    ∀ g, g < gd.text.length →
      (∃ s ∈ gd.segments, s.genStart ≤ g ∧ g < s.genEnd) ∧
      (∀ s ∈ gd.segments, ∀ t ∈ gd.segments,
        s.genStart ≤ g → g < s.genEnd → t.genStart ≤ g → g < t.genEnd → s = t) := by
  unfold bundleDoc at h
  cases hb : bundleChunks fs pre root with
  | error e => rw [hb] at h; cases h
  | ok cs =>
    rw [hb] at h
    simp only [Except.ok.injEq] at h
    subst h
    intro g hg
    constructor
    · exact segsFrom_cover (Nat.zero_le g) (by simpa using hg)
    · intro s hs t ht hs1 hs2 ht1 ht2
      have hpw : List.Pairwise
          (fun s t => ¬((decide (s.genStart ≤ g ∧ g < s.genEnd) = true) ∧
            (decide (t.genStart ≤ g ∧ g < t.genEnd) = true))) (segsFrom 0 cs) := by
        refine (segsFrom_pairwise_gen 0 cs).imp ?_
        intro a b hab hcon
        simp only [decide_eq_true_eq] at hcon
        omega
      exact unique_of_pairwise hpw hs (by simp [hs1, hs2]) ht (by simp [ht1, ht2])

/-- C1 witness: the partition property, instantiated on the example
workspace at generated offset 0. -/
theorem C1_partition_witness :
    (∃ s ∈ exDocA.segments, s.genStart ≤ 0 ∧ 0 < s.genEnd) ∧
    (∀ s ∈ exDocA.segments, ∀ t ∈ exDocA.segments,
      s.genStart ≤ 0 → 0 < s.genEnd → t.genStart ≤ 0 → 0 < t.genEnd → s = t) :=
  @C1_partition exFS exPre exA exDocA rfl 0 (by decide)

/-! ## Claim C2: exact round-trip on Verbatim segments -/

/-- Offset/(line, column) conversion round-trips on in-range offsets. -/
theorem lc_round_trip : ∀ (ls : List Line) (o : Nat), o < totalLen ls →
    lcToOffset ls (offsetToLC ls o) = o := by
  intro ls
  induction ls with
  | nil => intro o h; simp [totalLen] at h
  | cons l ls ih =>
    intro o h
    simp only [offsetToLC]
    by_cases hlt : o < lineLen l
    · rw [if_pos hlt]
      simp [lcToOffset]
    · rw [if_neg hlt]
      have hrec : o - lineLen l < totalLen ls := by
        simp only [totalLen, List.map_cons, List.sum_cons] at h
        simp only [totalLen]
        omega
      have hr := ih (o - lineLen l) hrec
      rw [lcToOffset]
      rw [Prod.mk.eta]
      omega

/-- C2: for every generated offset `g` inside a `Verbatim` mapping
segment of a bundled document, `toGenerated (toOrigin g)` returns exactly
`g`. -/
theorem C2_roundtrip {fs : FS} {pre root : Path} {gd : GenDoc} {s : MappingSegment} {g : Nat}
    (h : bundleDoc fs pre root = .ok gd) (hs : s ∈ gd.segments)
    (hk : s.kind = .Verbatim) (h1 : s.genStart ≤ g) (h2 : g < s.genEnd) :
    ∃ f r c, toOriginLC fs gd.segments g = some (f, r, c) ∧
      toGeneratedLC fs gd.segments f r c = some g := by
  unfold bundleDoc at h
  cases hb : bundleChunks fs pre root with
  | error e => rw [hb] at h; cases h
  | ok cs =>
    rw [hb] at h
    simp only [Except.ok.injEq] at h
    subst h
    simp only at hs h1 h2 ⊢
    obtain ⟨lines, hlk, hverb, hpwc⟩ := bundle_chunk_facts hb
    obtain ⟨c0, hc0, hof, hos, hoe, hkc, hge⟩ := mem_segsFrom hs
    have hvfacts := hverb c0 hc0 (by rw [← hkc, hk])
    have hroot : s.originFile = root := by rw [hof, hvfacts.1]
    -- the forward lookup finds s
    have hcov : List.Pairwise
        (fun x y => ¬((decide (x.genStart ≤ g ∧ g < x.genEnd) = true) ∧
          (decide (y.genStart ≤ g ∧ g < y.genEnd) = true))) (segsFrom 0 cs) := by
      refine (segsFrom_pairwise_gen 0 cs).imp ?_
      intro a b hab hcon
      simp only [decide_eq_true_eq] at hcon
      omega
    have hfind : (segsFrom 0 cs).find? (fun t => decide (t.genStart ≤ g ∧ g < t.genEnd))
        = some s :=
      find?_eq_of_pairwise (by simp [h1, h2]) hs hcov
    obtain ⟨hv1, hv2, hv3⟩ := hvfacts
    set o : Nat := s.originStart + (g - s.genStart) with ho
    have horange : s.originStart ≤ o ∧ o < s.originEnd := by
      constructor
      · omega
      · omega
    have holt : o < totalLen lines := by
      omega
    have htoo : toOrigin (segsFrom 0 cs) g = some (root, o) := by
      simp only [toOrigin, hfind]
      rw [hroot, hk]
      simp [← ho]
    refine ⟨root, (offsetToLC lines o).1, (offsetToLC lines o).2, ?_, ?_⟩
    · simp only [toOriginLC, htoo, hlk, Prod.mk.eta]
    · simp only [toGeneratedLC, hlk]
      rw [Prod.mk.eta, lc_round_trip lines o holt]
      -- the inverse lookup finds s again
      have hpwseg : List.Pairwise
          (fun x y => x.originFile = root → y.originFile = root →
            x.originEnd ≤ y.originStart) (segsFrom 0 cs) := by
        refine segsFrom_pairwise_of ?_ hpwc 0
        intro p q c c' hcc
        simpa [mkSeg] using hcc
      have hq : List.Pairwise
          (fun x y => ¬((decide (x.kind ≠ SegKind.SyntheticDirectiveTrivia ∧
              x.originFile = root ∧ x.originStart ≤ o ∧ o < x.originEnd) = true) ∧
            (decide (y.kind ≠ SegKind.SyntheticDirectiveTrivia ∧
              y.originFile = root ∧ y.originStart ≤ o ∧ o < y.originEnd) = true)))
          (segsFrom 0 cs) := by
        refine hpwseg.imp ?_
        intro a b hab hcon
        simp only [decide_eq_true_eq] at hcon
        obtain ⟨⟨_, ha2, ha3, ha4⟩, ⟨_, hb2, hb3, hb4⟩⟩ := hcon
        have := hab ha2 hb2
        omega
      have hfind2 : (segsFrom 0 cs).find?
          (fun t => decide (t.kind ≠ SegKind.SyntheticDirectiveTrivia ∧
            t.originFile = root ∧ t.originStart ≤ o ∧ o < t.originEnd)) = some s := by
        refine find?_eq_of_pairwise ?_ hs hq
        simp only [decide_eq_true_eq]
        refine ⟨by rw [hk]; simp, hroot, horange.1, horange.2⟩
      simp only [toGenerated, hfind2]
      congr 1
      omega

/-- C2 witness: round-trip at generated offset 9 of the example document,
which lies in the Verbatim segment of the root's `hi` line. -/
theorem C2_roundtrip_witness :
    ∃ f r c, toOriginLC exFS exDocA.segments 9 = some (f, r, c) ∧
      toGeneratedLC exFS exDocA.segments f r c = some 9 :=
  @C2_roundtrip exFS exPre exA exDocA ⟨9, 12, exA, 34, 37, .Verbatim⟩ 9
    rfl (by decide) rfl (by decide) (by decide)

/-! ## Congruence and fuel lemmas -/

/-- Walking items only depends on the include expander extensionally. -/
theorem itemsWith_congr {r1 r2 : SegKind → Path → List Path → ExpRes} {k : SegKind} {f : Path}
    (h : ∀ k' t' e', r1 k' t' e' = r2 k' t' e') :
    ∀ (items : List PItem) (o : Nat) (ex : List Path),
      expandItemsWith r1 k f items o ex = expandItemsWith r2 k f items o ex := by
  intro items
  induction items with
  | nil => intro o ex; rfl
  | cons x xs ih =>
    intro o ex
    cases x with
    | plain l => simp only [expandItemsWith, ih]
    | includeDir raw p =>
      simp only [expandItemsWith, h]
      cases r2 (childKind k) (resolvePath (dirOf f) p) ex with
      | error err => rfl
      | ok pr =>
        obtain ⟨tc, e1⟩ := pr
        dsimp only
        rw [ih]
    | textBlock ro c rc => simp only [expandItemsWith, ih]

/-- Target expansion only reads files that are not on the expansion
stack, so it is unchanged under a file system that agrees off-stack. -/
theorem target_congr (fs1 fs2 : FS) :
    ∀ (fuel : Nat) (stack : List Path) (k : SegKind) (t : Path) (ex : List Path),
      (∀ p, p ∉ stack → lookupFS fs1 p = lookupFS fs2 p) →
      expandTarget fs1 fuel stack k t ex = expandTarget fs2 fuel stack k t ex := by
  intro fuel
  induction fuel with
  | zero => intro stack k t ex h; rfl
  | succ n ih =>
    intro stack k t ex h
    simp only [expandTarget]
    by_cases hst : t ∈ stack
    · rw [if_pos hst, if_pos hst]
    · rw [if_neg hst, if_neg hst]
      by_cases hex : t ∈ ex
      · rw [if_pos hex, if_pos hex]
      · rw [if_neg hex, if_neg hex]
        rw [← h t hst]
        cases hlk : lookupFS fs1 t with
        | none => rfl
        | some lines =>
          dsimp only
          cases hp : parseLines lines with
          | error e => rfl
          | ok items =>
            dsimp only
            exact itemsWith_congr
              (fun k' t' e' => ih (t :: stack) k' t' e'
                (fun p hp' => h p (fun hm => hp' (List.mem_cons_of_mem _ hm))))
              items 0 (t :: ex)

theorem filter_imp_length {α : Type} (p q : α → Bool) (h : ∀ x, q x = true → p x = true) :
    ∀ l : List α, (l.filter q).length ≤ (l.filter p).length := by
  intro l
  induction l with
  | nil => simp
  | cons a l ih =>
    by_cases hq : q a = true
    · rw [List.filter_cons_of_pos hq, List.filter_cons_of_pos (h a hq)]
      simp only [List.length_cons]
      omega
    · rw [List.filter_cons_of_neg (by simpa using hq)]
      by_cases hp : p a = true
      · rw [List.filter_cons_of_pos hp]
        simp only [List.length_cons]
        omega
      · rw [List.filter_cons_of_neg (by simpa using hp)]
        exact ih

theorem cnt_push_lt (fs : FS) {t : Path} {stack : List Path}
    (hmem : t ∈ (fs.map Prod.fst).dedup) (hnst : t ∉ stack) :
    cntFree fs (t :: stack) < cntFree fs stack := by
  unfold cntFree
  generalize (fs.map Prod.fst).dedup = l at hmem
  induction l with
  | nil => cases hmem
  | cons a l ih =>
    have hle := filter_imp_length (fun p => decide (p ∉ stack))
      (fun p => decide (p ∉ t :: stack))
      (by intro x hx
          simp only [decide_eq_true_eq] at hx ⊢
          exact fun hm => hx (List.mem_cons_of_mem _ hm)) l
    rcases List.mem_cons.mp hmem with rfl | hmem'
    · rw [List.filter_cons_of_neg (by simp), List.filter_cons_of_pos (by simpa using hnst)]
      simp only [List.length_cons]
      omega
    · have hrec := ih hmem'
      by_cases h1 : a ∈ t :: stack
      · rw [List.filter_cons_of_neg (by simp [h1])]
        by_cases h2 : a ∈ stack
        · rw [List.filter_cons_of_neg (by simpa using h2)]
          exact hrec
        · rw [List.filter_cons_of_pos (by simpa using h2)]
          simp only [List.length_cons]
          omega
      · have h2 : a ∉ stack := fun hm => h1 (List.mem_cons_of_mem _ hm)
        rw [List.filter_cons_of_pos (by simpa using h1),
          List.filter_cons_of_pos (by simpa using h2)]
        simp only [List.length_cons]
        omega

theorem lookup_mem_dom {fs : FS} {t : Path} {v : List Line} (h : lookupFS fs t = some v) :
    t ∈ (fs.map Prod.fst).dedup := by
  rw [List.mem_dedup]
  induction fs with
  | nil => cases h
  | cons q fs ih =>
    obtain ⟨qp, qv⟩ := q
    simp only [lookupFS] at h
    by_cases hq : qp = t
    · simp [hq]
    · rw [if_neg hq] at h
      simpa using Or.inr (by simpa using ih h)

theorem cntFree_le (fs : FS) (stack : List Path) : cntFree fs stack ≤ fs.length := by
  unfold cntFree
  calc (((fs.map Prod.fst).dedup).filter _).length
      ≤ ((fs.map Prod.fst).dedup).length := List.length_filter_le _ _
    _ ≤ (fs.map Prod.fst).length := (List.dedup_sublist _).length_le
    _ = fs.length := List.length_map _ _

/-- Above the `cntFree` bound, one more unit of fuel does not change the
result of target expansion. -/
theorem target_fuel_step (fs : FS) :
    ∀ (n : Nat) (stack : List Path) (k : SegKind) (t : Path) (ex : List Path),
      cntFree fs stack + 1 ≤ n →
      expandTarget fs n stack k t ex = expandTarget fs (n + 1) stack k t ex := by
  intro n
  induction n with
  | zero => intro stack k t ex hb; omega
  | succ m ih =>
    intro stack k t ex hb
    show expandTarget fs (m + 1) stack k t ex = expandTarget fs (m + 1 + 1) stack k t ex
    simp only [expandTarget]
    by_cases hst : t ∈ stack
    · rw [if_pos hst, if_pos hst]
    · rw [if_neg hst, if_neg hst]
      by_cases hex : t ∈ ex
      · rw [if_pos hex, if_pos hex]
      · rw [if_neg hex, if_neg hex]
        cases hlk : lookupFS fs t with
        | none => rfl
        | some lines =>
          dsimp only
          cases hp : parseLines lines with
          | error e => rfl
          | ok items =>
            dsimp only
            refine itemsWith_congr (fun k' t' e' => ih (t :: stack) k' t' e' ?_) items 0 (t :: ex)
            have := cnt_push_lt fs (lookup_mem_dom hlk) hst
            omega

/-- Above the `cntFree` bound, the result of target expansion does not
depend on the amount of fuel. -/
theorem target_fuel_irrel (fs : FS) {n1 n2 : Nat} (stack : List Path) (k : SegKind)
    (t : Path) (ex : List Path)
    (h1 : cntFree fs stack + 1 ≤ n1) (h2 : cntFree fs stack + 1 ≤ n2) :
    expandTarget fs n1 stack k t ex = expandTarget fs n2 stack k t ex := by
  have aux : ∀ (n : Nat), cntFree fs stack + 1 ≤ n → ∀ d,
      expandTarget fs n stack k t ex = expandTarget fs (n + d) stack k t ex := by
    intro n hn d
    induction d with
    | zero => rfl
    | succ d ihd =>
      rw [ihd]
      exact target_fuel_step fs (n + d) stack k t ex (by omega)
  rcases Nat.le_total n1 n2 with h | h
  · have := aux n1 h1 (n2 - n1)
    rwa [Nat.add_sub_cancel' h] at this
  · have := aux n2 h2 (n1 - n2)
    rw [Nat.add_sub_cancel' h] at this
    exact this.symm

/-- The directive scanner never reports the embedding's recursion bound. -/
theorem parseGo_no_depth :
    ∀ (ls : List Line) (mode : Option (Nat × Line × List Line)) (idx : Nat),
      parseGo mode idx ls ≠ .error .depthExceeded := by
  intro ls
  induction ls with
  | nil =>
    intro mode idx h
    match mode with
    | none => cases h
    | some (oi, ro, acc) => cases h
  | cons l ls ih =>
    intro mode idx h
    match mode with
    | none =>
      simp only [parseGo] at h
      by_cases hop : isTextOpen l
      · rw [if_pos hop] at h
        exact ih _ _ h
      · rw [if_neg hop] at h
        rcases hinc : isIncludeLine l with _ | ⟨p, rest⟩
        · rw [hinc] at h
          rcases himp : isImportLine l with _ | p
          · rw [himp] at h
            exact ih _ _ (exceptMap_error h)
          · rw [himp] at h
            exact ih _ _ (exceptMap_error h)
        · rw [hinc] at h
          exact ih _ _ (exceptMap_error h)
    | some (oi, ro, acc) =>
      simp only [parseGo] at h
      by_cases hend : isTextEnd l
      · rw [if_pos hend] at h
        exact ih _ _ (exceptMap_error h)
      · rw [if_neg hend] at h
        exact ih _ _ h

theorem itemsWith_no_depth {rcall : SegKind → Path → List Path → ExpRes} {k : SegKind} {f : Path}
    (hrec : ∀ k' t' e', rcall k' t' e' ≠ .error .depthExceeded) :
    ∀ (items : List PItem) (o : Nat) (ex : List Path),
      expandItemsWith rcall k f items o ex ≠ .error .depthExceeded := by
  intro items
  induction items with
  | nil => intro o ex h; cases h
  | cons x xs ih =>
    intro o ex h
    cases x with
    | plain l =>
      simp only [expandItemsWith] at h
      cases hr : expandItemsWith rcall k f xs (o + lineLen l) ex with
      | error err => rw [hr] at h; cases h; exact ih _ _ hr
      | ok pr => obtain ⟨cs1, e1⟩ := pr; rw [hr] at h; cases h
    | includeDir raw p =>
      simp only [expandItemsWith] at h
      cases hrc : rcall (childKind k) (resolvePath (dirOf f) p) ex with
      | error err =>
        rw [hrc] at h
        cases h
        exact hrec _ _ _ hrc
      | ok pr0 =>
        obtain ⟨tc, e1⟩ := pr0
        rw [hrc] at h
        dsimp only at h
        cases hr : expandItemsWith rcall k f xs (o + lineLen raw) e1 with
        | error err => rw [hr] at h; cases h; exact ih _ _ hr
        | ok pr => obtain ⟨cs1, e2⟩ := pr; rw [hr] at h; cases h
    | textBlock ro c rc =>
      simp only [expandItemsWith] at h
      cases hr : expandItemsWith rcall k f xs (o + itemLen (PItem.textBlock ro c rc)) ex with
      | error err => rw [hr] at h; cases h; exact ih _ _ hr
      | ok pr => obtain ⟨cs1, e1⟩ := pr; rw [hr] at h; cases h

/-- With fuel above the `cntFree` bound, target expansion never runs out
of fuel. -/
theorem target_no_depth (fs : FS) :
    ∀ (n : Nat) (stack : List Path) (k : SegKind) (t : Path) (ex : List Path),
      cntFree fs stack + 1 ≤ n →
      expandTarget fs n stack k t ex ≠ .error .depthExceeded := by
  intro n
  induction n with
  | zero => intro stack k t ex hb; omega
  | succ m ih =>
    intro stack k t ex hb h
    simp only [expandTarget] at h
    by_cases hst : t ∈ stack
    · rw [if_pos hst] at h; cases h
    · rw [if_neg hst] at h
      by_cases hex : t ∈ ex
      · rw [if_pos hex] at h; cases h
      · rw [if_neg hex] at h
        cases hlk : lookupFS fs t with
        | none => rw [hlk] at h; cases h
        | some lines =>
          rw [hlk] at h
          dsimp only at h
          cases hp : parseLines lines with
          | error e =>
            rw [hp] at h
            cases h
            exact parseGo_no_depth lines none 0 hp
          | ok items =>
            rw [hp] at h
            dsimp only at h
            refine itemsWith_no_depth (fun k' t' e' => ih (t :: stack) k' t' e' ?_) items 0
              (t :: ex) h
            have := cnt_push_lt fs (lookup_mem_dom hlk) hst
            omega

/-- The bundler never reports the embedding's recursion bound: cycle
detection is by the expansion stack, not by exhaustion. -/
theorem bundle_no_depth (fs : FS) (pre root : Path) :
    bundleChunks fs pre root ≠ .error .depthExceeded := by
  intro h
  unfold bundleChunks at h
  cases hlk : lookupFS fs root with
  | none => rw [hlk] at h; cases h
  | some lines =>
    rw [hlk] at h
    dsimp only at h
    cases hp : parseLines lines with
    | error e =>
      rw [hp] at h
      cases h
      exact parseGo_no_depth lines none 0 hp
    | ok items =>
      rw [hp] at h
      dsimp only at h
      have hbound : cntFree fs [root] + 1 ≤ bundleFuel fs := by
        have := cntFree_le fs [root]
        unfold bundleFuel
        omega
      cases hpre : expandTarget fs (bundleFuel fs) [root] .InjectedPreamble pre [root] with
      | error e =>
        rw [hpre] at h
        cases h
        exact target_no_depth fs (bundleFuel fs) [root] .InjectedPreamble pre [root] hbound hpre
      | ok pr =>
        obtain ⟨pc, e1⟩ := pr
        rw [hpre] at h
        dsimp only at h
        cases hown : expandItemsWith
            (fun k' t' e' => expandTarget fs (bundleFuel fs) [root] k' t' e')
            .Verbatim root items 0 e1 with
        | error e =>
          rw [hown] at h
          cases h
          exact itemsWith_no_depth
            (fun k' t' e' => target_no_depth fs (bundleFuel fs) [root] k' t' e' hbound)
            items 0 e1 hown
        | ok pr2 => obtain ⟨own, e2⟩ := pr2; rw [hown] at h; cases h

/-! ## Claim C3: determinism -/

/-- C3: bundling is a deterministic function of its inputs — two runs
over file systems with identical contents (in particular, two runs over
the very same inputs) produce byte-identical generated text and
identical mapping-segment tables. -/
theorem C3_determinism (fs1 fs2 : FS) (pre root : Path)
    (h : ∀ p, lookupFS fs1 p = lookupFS fs2 p) :
    bundleDoc fs1 pre root = bundleDoc fs2 pre root := by
  have key : ∀ (k : SegKind) (t : Path) (ex : List Path),
      expandTarget fs1 (bundleFuel fs1) [root] k t ex
        = expandTarget fs2 (bundleFuel fs2) [root] k t ex := by
    intro k t ex
    have b1 : cntFree fs1 [root] + 1 ≤ bundleFuel fs1 := by
      have := cntFree_le fs1 [root]
      unfold bundleFuel
      omega
    have b2 : cntFree fs2 [root] + 1 ≤ bundleFuel fs2 := by
      have := cntFree_le fs2 [root]
      unfold bundleFuel
      omega
    calc expandTarget fs1 (bundleFuel fs1) [root] k t ex
        = expandTarget fs1 (bundleFuel fs1 + bundleFuel fs2) [root] k t ex :=
          target_fuel_irrel fs1 [root] k t ex b1 (by omega)
      _ = expandTarget fs2 (bundleFuel fs1 + bundleFuel fs2) [root] k t ex :=
          target_congr fs1 fs2 (bundleFuel fs1 + bundleFuel fs2) [root] k t ex (fun p _ => h p)
      _ = expandTarget fs2 (bundleFuel fs2) [root] k t ex :=
          (target_fuel_irrel fs2 [root] k t ex b2 (by omega)).symm
  unfold bundleDoc bundleChunks
  rw [h root]
  cases lookupFS fs2 root with
  | none => rfl
  | some lines =>
    dsimp only
    cases parseLines lines with
    | error e => rfl
    | ok items =>
      dsimp only
      rw [key .InjectedPreamble pre [root]]
      cases expandTarget fs2 (bundleFuel fs2) [root] .InjectedPreamble pre [root] with
      | error e => rfl
      | ok pr =>
        obtain ⟨pc, e1⟩ := pr
        dsimp only
        rw [itemsWith_congr (fun k' t' e' => key k' t' e') items 0 e1]

/-- C3 witness: two runs of the bundler on the example workspace agree. -/
theorem C3_determinism_witness : bundleDoc exFS exPre exA = bundleDoc exFS exPre exA :=
  C3_determinism exFS exFS exPre exA (fun _ => rfl)

/-! ## Claim C5: the preamble is expanded exactly once, at position 0 -/

/-- C5: the generated document starts with the preamble's expansion
(generated position 0), the root's own content follows it, and no chunk
outside that prefix originates from the preamble file: the preamble is
expanded exactly once per generated document. -/
theorem C5_preamble {fs : FS} {pre root : Path} {cs : List Chunk}
    (hb : bundleChunks fs pre root = .ok cs) (hne : root ≠ pre) :
    ∃ pc e1 own,
      expandTarget fs (bundleFuel fs) [root] .InjectedPreamble pre [root] = .ok (pc, e1) ∧
      cs = pc ++ own ∧ emit cs = emit pc ++ emit own ∧
      ∀ c ∈ own, c.originFile ≠ pre := by
  obtain ⟨lines, items, pc, e1, own, e2, hlk, hp, hpre, hown, hcs⟩ := bundle_inv hb
  have hmem := target_sub_mem fs (bundleFuel fs) [root] .InjectedPreamble pre [root] pc e1 hpre
  have hrec : ∀ t' e3 cs2 e4,
      expandTarget fs (bundleFuel fs) [root] (childKind .Verbatim) t' e3 = .ok (cs2, e4) →
      e3 ⊆ e4 ∧ ∀ c ∈ cs2,
        c.originFile ∉ [root] ∧ c.originFile ∉ e3 ∧ c.kind ≠ .Verbatim :=
    fun t' e3 cs2 e4 hcall =>
      target_inv fs (bundleFuel fs) [root] (childKind .Verbatim) t' e3 cs2 e4
        (childKind_ne_verbatim _) hcall
  obtain ⟨_, hgood, _⟩ :=
    itemsWith_inv (List.mem_cons_self root []) hrec items 0 e1 own e2 hown
  refine ⟨pc, e1, own, hpre, hcs, by rw [hcs, emit_append], ?_⟩
  intro c hc hcp
  by_cases hcf : c.originFile = root
  · exact hne (by rw [← hcf, hcp])
  · exact ((hgood c hc).2.1 hcf).2 (by rw [hcp]; exact hmem.2)

/-- C5 witness: the example document decomposes into the preamble
expansion followed by preamble-free content. -/
theorem C5_preamble_witness :
    ∃ pc e1 own,
      expandTarget exFS (bundleFuel exFS) [exA] .InjectedPreamble exPre [exA] = .ok (pc, e1) ∧
      (bundleChunks exFS exPre exA).toOption.getD [] = pc ++ own ∧
      emit ((bundleChunks exFS exPre exA).toOption.getD []) = emit pc ++ emit own ∧
      ∀ c ∈ own, c.originFile ≠ exPre :=
  @C5_preamble exFS exPre exA ((bundleChunks exFS exPre exA).toOption.getD [])
    rfl (by decide)

/-! ## Claim C4: duplicate includes collapse -/

/-- A successful target expansion implies the target was not on the
expansion stack. -/
theorem target_ok_not_stack {fs : FS} {n : Nat} {stack : List Path} {k : SegKind} {t : Path}
    {ex : List Path} {cs : List Chunk} {e' : List Path}
    (h : expandTarget fs n stack k t ex = .ok (cs, e')) : t ∉ stack := by
  cases n with
  | zero => cases h
  | succ m =>
    simp only [expandTarget] at h
    by_cases hst : t ∈ stack
    · rw [if_pos hst] at h; cases h
    · exact hst

/-- Expanding an already-expanded target is a no-op: no chunks, expanded
set unchanged. -/
theorem target_noop (fs : FS) (n : Nat) (stack : List Path) (k : SegKind) (t : Path)
    (ex : List Path) (hst : t ∉ stack) (hex : t ∈ ex) :
    expandTarget fs (n + 1) stack k t ex = .ok ([], ex) := by
  simp only [expandTarget]
  rw [if_neg hst, if_pos hex]

/-- Inversion of a successful walk starting with an include item. -/
theorem itemsWith_include_ok {rcall : SegKind → Path → List Path → ExpRes} {k : SegKind}
    {f : Path} {raw : Line} {p : List Char} {items : List PItem} {o : Nat} {ex : List Path}
    {cs : List Chunk} {e' : List Path}
    (h : expandItemsWith rcall k f (.includeDir raw p :: items) o ex = .ok (cs, e')) :
    ∃ tc e1 cs1, rcall (childKind k) (resolvePath (dirOf f) p) ex = .ok (tc, e1) ∧
      expandItemsWith rcall k f items (o + lineLen raw) e1 = .ok (cs1, e') ∧ cs = tc ++ cs1 := by
  simp only [expandItemsWith] at h
  cases hrc : rcall (childKind k) (resolvePath (dirOf f) p) ex with
  | error err => rw [hrc] at h; cases h
  | ok pr0 =>
    obtain ⟨tc, e1⟩ := pr0
    rw [hrc] at h
    dsimp only at h
    cases hr : expandItemsWith rcall k f items (o + lineLen raw) e1 with
    | error err => rw [hr] at h; cases h
    | ok pr =>
      obtain ⟨cs1, e2⟩ := pr
      rw [hr] at h
      simp only [Except.ok.injEq, Prod.mk.injEq] at h
      exact ⟨tc, e1, cs1, rfl, by rw [hr, h.2], h.1.symm⟩

/-- A `./`-relative path written from a file in the workspace root
resolves to the same file as the bare workspace-root path. -/
theorem resolve_dotSlash (r : List Char) :
    resolvePath [] ('.' :: '/' :: r) = resolvePath [] r := by
  unfold resolvePath
  have h1 : splitSlash ('.' :: '/' :: r) = ['.'] :: splitSlash r := by
    simp [splitSlash]
  rw [h1]
  have h2 : isRelRaw ('.' :: '/' :: r) = true := by
    simp only [isRelRaw, Bool.or_eq_true]
    left
    show List.isPrefixOf ['.', '/'] ('.' :: '/' :: r) = true
    simp [List.isPrefixOf]
  rw [if_pos h2]
  have h3 : (if isRelRaw r = true then ([] : Path) else []) = [] := by
    split <;> rfl
  rw [h3]
  simp only [List.foldl_cons]
  have h4 : normStep [] ['.'] = [] := by decide
  rw [h4]

/-- C4: a file reached through two include references (for example a
`./`-relative path and a workspace-root path, or `import` syntax) is
expanded exactly once: the second reference's expansion contributes no
chunks and leaves the expanded set unchanged, the dependency edge list is
duplicate-free with a single edge to the target, and `./`-relative paths
resolve like workspace-root paths from the root directory. -/
theorem C4_dedup {fs : FS} {pre root : Path} {lines : List Line} {I1 I2 I3 : List PItem}
    {r1 r2 : Line} {p1 p2 : List Char} {t : Path} {cs : List Chunk}
    (hlk : lookupFS fs root = some lines)
    (hp : parseLines lines =
      .ok (I1 ++ PItem.includeDir r1 p1 :: (I2 ++ PItem.includeDir r2 p2 :: I3)))
    (ht1 : resolvePath (dirOf root) p1 = t)
    (ht2 : resolvePath (dirOf root) p2 = t)
    (hb : bundleChunks fs pre root = .ok cs) :
    ∃ pc cA tc cD cF eA eB eC,
      cs = pc ++ (cA ++ (tc ++ (cD ++ cF))) ∧
      expandTarget fs (bundleFuel fs) [root] .InjectedInclude t eA = .ok (tc, eB) ∧
      t ∈ eC ∧
      expandTarget fs (bundleFuel fs) [root] .InjectedInclude t eC = .ok ([], eC) ∧
      (directDeps (dirOf root)
        (I1 ++ PItem.includeDir r1 p1 :: (I2 ++ PItem.includeDir r2 p2 :: I3))).Nodup ∧
      t ∈ directDeps (dirOf root)
        (I1 ++ PItem.includeDir r1 p1 :: (I2 ++ PItem.includeDir r2 p2 :: I3)) ∧
      ∀ r, resolvePath [] ('.' :: '/' :: r) = resolvePath [] r := by
  obtain ⟨lines0, items0, pc, e1, own, e2, hlk0, hp0, hpre, hown, hcs⟩ := bundle_inv hb
  rw [hlk] at hlk0
  obtain rfl : lines0 = lines := (Option.some_injective _ hlk0).symm
  rw [hp] at hp0
  obtain rfl : items0 = I1 ++ PItem.includeDir r1 p1 :: (I2 ++ PItem.includeDir r2 p2 :: I3) :=
    by exact (Except.ok.inj hp0).symm
  obtain ⟨cA, eA, cB, hI1, hrest1, hownEq⟩ := itemsWith_append_ok hown
  obtain ⟨tc, eB, cC, htc, hrest2, hcBEq⟩ := itemsWith_include_ok hrest1
  have htcT : expandTarget fs (bundleFuel fs) [root] .InjectedInclude t eA = .ok (tc, eB) := by
    rw [← ht1]
    exact htc
  obtain ⟨cD, eC, cE, hI2, hrest3, hcCEq⟩ := itemsWith_append_ok hrest2
  obtain ⟨tc2, eD, cF, htc2, hrest4, hcEEq⟩ := itemsWith_include_ok hrest3
  have htc2T : expandTarget fs (bundleFuel fs) [root] .InjectedInclude t eC = .ok (tc2, eD) := by
    rw [← ht2]
    exact htc2
  have hts : t ∉ [root] := target_ok_not_stack htcT
  have htB : t ∈ eB := (target_sub_mem fs (bundleFuel fs) [root] .InjectedInclude t eA tc eB htcT).2
  have hBC : eB ⊆ eC :=
    itemsWith_subset
      (fun k' t' e3 cs2 e4 hc => (target_sub_mem fs (bundleFuel fs) [root] k' t' e3 cs2 e4 hc).1)
      I2 _ eB cD eC hI2
  have htC : t ∈ eC := hBC htB
  have hnoop : expandTarget fs (bundleFuel fs) [root] .InjectedInclude t eC = .ok ([], eC) := by
    show expandTarget fs (fs.length + 1) [root] .InjectedInclude t eC = .ok ([], eC)
    exact target_noop fs fs.length [root] .InjectedInclude t eC hts htC
  have htc2eq : tc2 = [] ∧ eD = eC := by
    have := htc2T.symm.trans hnoop
    simp only [Except.ok.injEq, Prod.mk.injEq] at this
    exact this
  refine ⟨pc, cA, tc, cD, cF, eA, eB, eC, ?_, htcT, htC, hnoop, List.nodup_dedup _, ?_, ?_⟩
  · rw [hcs, hownEq, hcBEq, hcCEq, hcEEq, htc2eq.1]
    simp
  · unfold directDeps
    rw [List.mem_dedup]
    refine List.mem_filterMap.mpr ⟨PItem.includeDir r1 p1, ?_, by simp [ht1]⟩
    simp
  · exact resolve_dotSlash

/-- C4 witness: in the example workspace the root includes `u.js` twice
(`./`-relative and workspace-root) and the second expansion contributes
nothing. -/
theorem C4_dedup_witness :
    ∃ pc cA tc cD cF eA eB eC,
      (bundleChunks exFS exPre exA).toOption.getD [] = pc ++ (cA ++ (tc ++ (cD ++ cF))) ∧
      expandTarget exFS (bundleFuel exFS) [exA] .InjectedInclude exU eA = .ok (tc, eB) ∧
      exU ∈ eC ∧
      expandTarget exFS (bundleFuel exFS) [exA] .InjectedInclude exU eC = .ok ([], eC) ∧
      (directDeps (dirOf exA)
        ([] ++ PItem.includeDir "#include <./u.js>".toList "./u.js".toList ::
          ([] ++ PItem.includeDir "#include <u.js>".toList "u.js".toList ::
            [PItem.plain "hi".toList,
             PItem.textBlock "#text".toList ["T".toList] "#endtext".toList,
             PItem.plain "bye".toList]))).Nodup ∧
      exU ∈ directDeps (dirOf exA)
        ([] ++ PItem.includeDir "#include <./u.js>".toList "./u.js".toList ::
          ([] ++ PItem.includeDir "#include <u.js>".toList "u.js".toList ::
            [PItem.plain "hi".toList,
             PItem.textBlock "#text".toList ["T".toList] "#endtext".toList,
             PItem.plain "bye".toList])) ∧
      ∀ r, resolvePath [] ('.' :: '/' :: r) = resolvePath [] r :=
  @C4_dedup exFS exPre exA ((lookupFS exFS exA).getD []) [] []
    [PItem.plain "hi".toList,
     PItem.textBlock "#text".toList ["T".toList] "#endtext".toList,
     PItem.plain "bye".toList]
    "#include <./u.js>".toList "#include <u.js>".toList
    "./u.js".toList "u.js".toList
    exU ((bundleChunks exFS exPre exA).toOption.getD [])
    rfl (by decide) (by decide) (by decide) rfl

/-! ## Claim C7: text-block lowering preserves the content bytes -/

/-- Inversion of a successful walk starting with a text-block item. -/
theorem itemsWith_textblock_ok {rcall : SegKind → Path → List Path → ExpRes} {k : SegKind}
    {f : Path} {ro rc : Line} {c : List Line} {items : List PItem} {o : Nat} {ex : List Path}
    {cs : List Chunk} {e' : List Path}
    (h : expandItemsWith rcall k f (.textBlock ro c rc :: items) o ex = .ok (cs, e')) :
    ∃ cs1, expandItemsWith rcall k f items (o + itemLen (.textBlock ro c rc)) ex
        = .ok (cs1, e') ∧
      cs = tbChunks k f o ro c rc ++ cs1 := by
  simp only [expandItemsWith] at h
  cases hr : expandItemsWith rcall k f items (o + itemLen (PItem.textBlock ro c rc)) ex with
  | error err => rw [hr] at h; cases h
  | ok pr =>
    obtain ⟨cs1, e1⟩ := pr
    rw [hr] at h
    simp only [Except.ok.injEq, Prod.mk.injEq] at h
    exact ⟨cs1, by rw [h.2], h.1.symm⟩

/-- Stripping the delimiter trivia from a lowered `#text` block recovers
the content bytes exactly. -/
theorem literalValue_lowerTB (c : List Line) : literalValueOf (lowerTB c) = origText c := by
  unfold literalValueOf lowerTB
  rw [List.append_assoc]
  rw [List.drop_left]
  have hlen : (lowerOpen ++ (origText c ++ lowerClose)).length - lowerOpen.length
      - lowerClose.length = (origText c).length := by
    simp only [List.length_append]
    have h1 : lowerOpen.length = 5 := by decide
    have h2 : lowerClose.length = 3 := by decide
    omega
  rw [hlen, List.take_left]

/-- C7: every `#text ... #endtext` block of the bundled file is lowered
into a template-literal expression whose literal value is byte-for-byte
the block's content span; only the delimiter trivia around it differs. -/
theorem C7_textblock {fs : FS} {pre root : Path} {lines : List Line} {I1 I2 : List PItem}
    {ro rc : Line} {c : List Line} {cs : List Chunk}
    (hlk : lookupFS fs root = some lines)
    (hp : parseLines lines = .ok (I1 ++ PItem.textBlock ro c rc :: I2))
    (hb : bundleChunks fs pre root = .ok cs) :
    (∃ pfx sfx, emit cs = pfx ++ lowerTB c ++ sfx) ∧
    literalValueOf (lowerTB c) = origText c := by
  obtain ⟨lines0, items0, pc, e1, own, e2, hlk0, hp0, hpre, hown, hcs⟩ := bundle_inv hb
  rw [hlk] at hlk0
  obtain rfl : lines0 = lines := (Option.some_injective _ hlk0).symm
  rw [hp] at hp0
  obtain rfl : items0 = I1 ++ PItem.textBlock ro c rc :: I2 := (Except.ok.inj hp0).symm
  obtain ⟨cA, eA, cB, hI1, hrest1, hownEq⟩ := itemsWith_append_ok hown
  obtain ⟨cs1, hrest2, hcBEq⟩ := itemsWith_textblock_ok hrest1
  refine ⟨⟨emit pc ++ emit cA, emit cs1, ?_⟩, literalValue_lowerTB c⟩
  rw [hcs, hownEq, hcBEq]
  rw [emit_append, emit_append, emit_append]
  have htb : emit (tbChunks .Verbatim root (0 + itemsLen I1) ro c rc) = lowerTB c := by
    simp [emit, tbChunks, lowerTB]
  rw [htb]
  simp [List.append_assoc]

/-- C7 witness: the example's `#text` block (content line `T`) appears
lowered in the generated text with its bytes intact. -/
theorem C7_textblock_witness :
    (∃ pfx sfx, emit ((bundleChunks exFS exPre exA).toOption.getD [])
        = pfx ++ lowerTB ["T".toList] ++ sfx) ∧
    literalValueOf (lowerTB ["T".toList]) = origText ["T".toList] :=
  @C7_textblock exFS exPre exA ((lookupFS exFS exA).getD [])
    [PItem.includeDir "#include <./u.js>".toList "./u.js".toList,
     PItem.includeDir "#include <u.js>".toList "u.js".toList,
     PItem.plain "hi".toList]
    [PItem.plain "bye".toList]
    "#text".toList "#endtext".toList ["T".toList]
    ((bundleChunks exFS exPre exA).toOption.getD [])
    rfl (by decide) rfl

/-! ## Claim C8: unterminated text block, diagnostics and retention -/

/-- C8: when the root file's `#text` block is unterminated, resolution
fails with `UnterminatedTextBlock` at the unmatched `#text` line (an
opener with no `#endtext` after it), no new GeneratedDocument is
produced, and the session keeps serving its previous document while
surfacing exactly that diagnostic. -/
theorem C8_retention {fs : FS} {pre root : Path} {lines : List Line} {i : Nat}
    (hlk : lookupFS fs root = some lines)
    (hp : parseLines lines = .error (.unterminatedTextBlock i)) (s : SessionState) :
    onEdit fs pre root s = ⟨s.current, [.unterminatedTextBlock i]⟩ ∧
    bundleDoc fs pre root = .error (.unterminatedTextBlock i) ∧
    ∃ hd : i < lines.length, lines.get ⟨i, hd⟩ = textOpenMarker ∧
      textEndMarker ∉ lines.drop (i + 1) := by
  have hbc : bundleChunks fs pre root = .error (.unterminatedTextBlock i) := by
    unfold bundleChunks
    rw [hlk]
    dsimp only
    rw [hp]
  have hbd : bundleDoc fs pre root = .error (.unterminatedTextBlock i) := by
    unfold bundleDoc
    rw [hbc]
  refine ⟨?_, hbd, ?_⟩
  · unfold onEdit
    rw [hbd]
  · rcases parseGo_unterminated lines none 0 i hp with ⟨ro, acc, hmode, _⟩ | ⟨d, hd, hi, hget, hne⟩
    · cases hmode
    · obtain rfl : d = i := by omega
      exact ⟨hd, hget, hne⟩

/-- C8 witness: the bad workspace's root opens `#text` at line 0 and
never closes it; a session holding the example document keeps it. -/
theorem C8_retention_witness :
    onEdit exBadFS exPre exA ⟨some exDocA, []⟩
        = ⟨(SessionState.mk (some exDocA) []).current, [.unterminatedTextBlock 0]⟩ ∧
    bundleDoc exBadFS exPre exA = .error (.unterminatedTextBlock 0) ∧
    ∃ hd : 0 < ((lookupFS exBadFS exA).getD []).length,
      ((lookupFS exBadFS exA).getD []).get ⟨0, hd⟩ = textOpenMarker ∧
      textEndMarker ∉ ((lookupFS exBadFS exA).getD []).drop (0 + 1) :=
  @C8_retention exBadFS exPre exA ((lookupFS exBadFS exA).getD []) 0
    rfl (by decide) ⟨some exDocA, []⟩

/-! ## Claim C6: cycle rejection -/

/-- A target on the current expansion stack always fails. -/
theorem target_stack_error (fs : FS) (n : Nat) (stack : List Path) (k : SegKind) (t : Path)
    (ex : List Path) (h : t ∈ stack) :
    ∃ err, expandTarget fs n stack k t ex = .error err := by
  cases n with
  | zero => exact ⟨.depthExceeded, rfl⟩
  | succ m =>
    refine ⟨.cyclicInclude, ?_⟩
    simp only [expandTarget]
    rw [if_pos h]

/-- Include-free items always expand, leaving the expanded set unchanged. -/
theorem itemsWith_noIncludes {rcall : SegKind → Path → List Path → ExpRes} {k : SegKind}
    {f : Path} :
    ∀ (items : List PItem), noIncludes items = true → ∀ (o : Nat) (ex : List Path),
      ∃ cs, expandItemsWith rcall k f items o ex = .ok (cs, ex) := by
  intro items
  induction items with
  | nil => intro _ o ex; exact ⟨[], rfl⟩
  | cons x xs ih =>
    intro hni o ex
    cases x with
    | plain l =>
      have hni' : noIncludes xs = true := by
        simp only [noIncludes, List.all_cons, Bool.and_eq_true] at hni
        exact hni.2
      obtain ⟨cs, hcs⟩ := ih hni' (o + lineLen l) ex
      exact ⟨plainChunk k f o l :: cs, by simp only [expandItemsWith, hcs]⟩
    | includeDir raw p =>
      simp [noIncludes, List.all_cons] at hni
    | textBlock ro c rc =>
      have hni' : noIncludes xs = true := by
        simp only [noIncludes, List.all_cons, Bool.and_eq_true] at hni
        exact hni.2
      obtain ⟨cs, hcs⟩ := ih hni' (o + itemLen (PItem.textBlock ro c rc)) ex
      exact ⟨tbChunks k f o ro c rc ++ cs, by simp only [expandItemsWith, hcs]⟩

/-- A failing include reference fails the whole walk. -/
theorem itemsWith_include_error {rcall : SegKind → Path → List Path → ExpRes} {k : SegKind}
    {f : Path} (raw : Line) {p : List Char} (items : List PItem) {o : Nat} {ex : List Path}
    {err : GlError}
    (h : rcall (childKind k) (resolvePath (dirOf f) p) ex = .error err) :
    expandItemsWith rcall k f (.includeDir raw p :: items) o ex = .error err := by
  simp only [expandItemsWith, h]

theorem itemsWith_not_completed {rcall : SegKind → Path → List Path → ExpRes} {k : SegKind}
    {f b : Path}
    (hrec : ∀ k' t' e2 cs2 e3, b ∉ e2 → rcall k' t' e2 = .ok (cs2, e3) → b ∉ e3) :
    ∀ (items : List PItem) (o : Nat) (ex : List Path) (cs : List Chunk) (e' : List Path),
      b ∉ ex → expandItemsWith rcall k f items o ex = .ok (cs, e') → b ∉ e' := by
  intro items
  induction items with
  | nil =>
    intro o ex cs e' hb h
    simp only [expandItemsWith, Except.ok.injEq, Prod.mk.injEq] at h
    rw [← h.2]
    exact hb
  | cons x xs ih =>
    intro o ex cs e' hb h
    cases x with
    | plain l =>
      simp only [expandItemsWith] at h
      cases hr : expandItemsWith rcall k f xs (o + lineLen l) ex with
      | error err => rw [hr] at h; cases h
      | ok pr =>
        obtain ⟨cs1, e1⟩ := pr
        rw [hr] at h
        simp only [Except.ok.injEq, Prod.mk.injEq] at h
        rw [← h.2]
        exact ih _ _ _ _ hb hr
    | includeDir raw p =>
      simp only [expandItemsWith] at h
      cases hrc : rcall (childKind k) (resolvePath (dirOf f) p) ex with
      | error err => rw [hrc] at h; cases h
      | ok pr0 =>
        obtain ⟨tc, e1⟩ := pr0
        rw [hrc] at h
        dsimp only at h
        cases hr : expandItemsWith rcall k f xs (o + lineLen raw) e1 with
        | error err => rw [hr] at h; cases h
        | ok pr =>
          obtain ⟨cs1, e2⟩ := pr
          rw [hr] at h
          simp only [Except.ok.injEq, Prod.mk.injEq] at h
          rw [← h.2]
          exact ih _ _ _ _ (hrec _ _ _ _ _ hb hrc) hr
    | textBlock ro c rc =>
      simp only [expandItemsWith] at h
      cases hr : expandItemsWith rcall k f xs (o + itemLen (PItem.textBlock ro c rc)) ex with
      | error err => rw [hr] at h; cases h
      | ok pr =>
        obtain ⟨cs1, e1⟩ := pr
        rw [hr] at h
        simp only [Except.ok.injEq, Prod.mk.injEq] at h
        rw [← h.2]
        exact ih _ _ _ _ hb hr

/-- While `a` is on the expansion stack, a file `b` whose parsed items
include a reference resolving to `a` can never complete its own
expansion, so `b` never enters the expanded set. -/
theorem not_completed (fs : FS) {a b : Path} {lb : List Line} {K1 K2 : List PItem}
    {r2 : Line} {p2 : List Char}
    (hlb : lookupFS fs b = some lb)
    (hpb : parseLines lb = .ok (K1 ++ PItem.includeDir r2 p2 :: K2))
    (hK1 : noIncludes K1 = true)
    (hres : resolvePath (dirOf b) p2 = a) :
    ∀ (fuel : Nat) (stack : List Path) (k : SegKind) (t : Path) (ex : List Path)
      (cs : List Chunk) (e' : List Path),
      a ∈ stack → b ∉ ex →
      expandTarget fs fuel stack k t ex = .ok (cs, e') → b ∉ e' := by
  intro fuel
  induction fuel with
  | zero => intro stack k t ex cs e' ha hb h; cases h
  | succ n ih =>
    intro stack k t ex cs e' ha hb h
    simp only [expandTarget] at h
    by_cases hst : t ∈ stack
    · rw [if_pos hst] at h; cases h
    · rw [if_neg hst] at h
      by_cases hex : t ∈ ex
      · rw [if_pos hex] at h
        simp only [Except.ok.injEq, Prod.mk.injEq] at h
        rw [← h.2]
        exact hb
      · rw [if_neg hex] at h
        by_cases htb : t = b
        · subst htb
          rw [hlb] at h
          dsimp only at h
          rw [hpb] at h
          dsimp only at h
          obtain ⟨csK, hK⟩ := itemsWith_noIncludes K1 hK1 0 (t :: ex)
          obtain ⟨err, herr⟩ := target_stack_error fs n (t :: stack) (childKind k) a
            (t :: ex) (List.mem_cons_of_mem _ ha)
          have hfail := itemsWith_append_error hK
            (itemsWith_include_error r2 K2 (by rw [hres]; exact herr))
          rw [hfail] at h
          cases h
        · cases hlk : lookupFS fs t with
          | none => rw [hlk] at h; cases h
          | some lines =>
            rw [hlk] at h
            dsimp only at h
            cases hp : parseLines lines with
            | error e => rw [hp] at h; cases h
            | ok items =>
              rw [hp] at h
              dsimp only at h
              refine itemsWith_not_completed
                (fun k' t' e2 cs2 e3 hb2 hc => ih (t :: stack) k' t' e2 cs2 e3
                  (List.mem_cons_of_mem _ ha) hb2 hc)
                items 0 (t :: ex) cs e' ?_ h
              intro hm
              rcases List.mem_cons.mp hm with h0 | h0
              · exact htb h0.symm
              · exact hb h0

/-- C6: cycle rejection.  (i) Expansion that revisits a file already on
the current expansion stack fails with `CyclicInclude`; (ii) the bundler
never fails by exhausting its recursion bound, so cycle detection is
never an infinite loop or a silent truncation; (iii) two distinct files
that include each other (below any include-free prefix) make bundling
fail with `CyclicInclude` — no document is produced. -/
theorem C6_cycle (fs : FS) :
    (∀ (fuel : Nat) (stack : List Path) (k : SegKind) (t : Path) (ex : List Path),
      t ∈ stack → expandTarget fs (fuel + 1) stack k t ex = .error .cyclicInclude) ∧
    (∀ (pre root : Path), bundleChunks fs pre root ≠ .error .depthExceeded) ∧
    (∀ (pre a b : Path) (la lb : List Line) (J1 J2 K1 K2 : List PItem) (r1 r2 : Line)
       (p1 p2 : List Char) (pc : List Chunk) (e1 : List Path),
      a ≠ b →
      lookupFS fs a = some la →
      parseLines la = .ok (J1 ++ PItem.includeDir r1 p1 :: J2) →
      noIncludes J1 = true →
      resolvePath (dirOf a) p1 = b →
      lookupFS fs b = some lb →
      parseLines lb = .ok (K1 ++ PItem.includeDir r2 p2 :: K2) →
      noIncludes K1 = true →
      resolvePath (dirOf b) p2 = a →
      expandTarget fs (bundleFuel fs) [a] .InjectedPreamble pre [a] = .ok (pc, e1) →
      bundleChunks fs pre a = .error .cyclicInclude) := by
  refine ⟨?_, ?_, ?_⟩
  · intro fuel stack k t ex h
    simp only [expandTarget]
    rw [if_pos h]
  · exact fun pre root => bundle_no_depth fs pre root
  · intro pre a b la lb J1 J2 K1 K2 r1 r2 p1 p2 pc e1 hab hla hpa hJ1 hres1 hlb hpb hK1
      hres2 hpre
    have hbne1 : b ∉ e1 :=
      not_completed fs hlb hpb hK1 hres2 (bundleFuel fs) [a] .InjectedPreamble pre [a] pc e1
        (List.mem_cons_self _ _) (by simpa using Ne.symm hab) hpre
    obtain ⟨m, hm⟩ : ∃ m, fs.length = m + 1 := by
      cases hfs : fs with
      | nil => rw [hfs] at hla; cases hla
      | cons q qs => exact ⟨qs.length, by simp⟩
    have hbstack : b ∉ [a] := by simpa using Ne.symm hab
    have hbcall : expandTarget fs (bundleFuel fs) [a] .InjectedInclude b e1
        = .error .cyclicInclude := by
      show expandTarget fs (fs.length + 1) [a] .InjectedInclude b e1 = .error .cyclicInclude
      simp only [expandTarget]
      rw [if_neg hbstack, if_neg hbne1, hlb]
      dsimp only
      rw [hpb]
      dsimp only
      obtain ⟨csK, hK⟩ := itemsWith_noIncludes K1 hK1 0 (b :: e1)
      refine itemsWith_append_error hK (itemsWith_include_error r2 K2 ?_)
      rw [hres2, hm]
      simp only [expandTarget]
      rw [if_pos (by simp : a ∈ b :: [a])]
    obtain ⟨csJ, hJ⟩ := itemsWith_noIncludes J1 hJ1 0 e1
    have hfailroot : expandItemsWith
        (fun k' t' e' => expandTarget fs (bundleFuel fs) [a] k' t' e') .Verbatim a
        (J1 ++ PItem.includeDir r1 p1 :: J2) 0 e1 = .error .cyclicInclude :=
      itemsWith_append_error hJ
        (itemsWith_include_error r1 J2 (by rw [hres1]; exact hbcall))
    unfold bundleChunks
    rw [hla]
    dsimp only
    rw [hpa]
    dsimp only
    rw [hpre]
    dsimp only
    rw [hfailroot]

/-- C6 witness: the mutually-including pair `a.js ↔ b.js` is rejected
with `CyclicInclude`. -/
theorem C6_cycle_witness : bundleChunks exCycFS exPre exA = .error .cyclicInclude :=
  (C6_cycle exCycFS).2.2 exPre exA exB
    ((lookupFS exCycFS exA).getD []) ((lookupFS exCycFS exB).getD [])
    [] [] [] []
    "#include <b.js>".toList "#include <a.js>".toList
    "b.js".toList "a.js".toList
    [⟨"// p
".toList, exPre, 0, 5, .InjectedPreamble⟩] [exPre, exA]
    (by decide) rfl (by decide) rfl (by decide) rfl (by decide) rfl (by decide) (by decide)

/-! ## Claim C10: the "Transpile to ES syntax" rewrite is layout-preserving -/

theorem splitAtChar_append {ch : Char} (p rest : List Char) (h : ch ∉ p) :
    splitAtChar ch (p ++ ch :: rest) = some (p, rest) := by
  induction p with
  | nil => simp [splitAtChar]
  | cons c cs ih =>
    simp only [List.cons_append, splitAtChar, List.append_eq]
    rw [if_neg (fun he => h (by rw [he]; exact List.mem_cons_self _ _))]
    rw [ih (fun hm => h (List.mem_cons_of_mem _ hm))]

/-- C10: the custom "Transpile to ES syntax" action rewrites every
`#include <path>` directive into `import   "path"`, whose replacement
occupies exactly as many characters as the directive it replaces; the
rest of the rewritten line is preserved at its original columns, and
lines without an include directive are left unchanged. -/
theorem C10_transpile :
    (∀ (p rest : List Char), '>' ∉ p →
      isIncludeLine (incMarker ++ p ++ '>' :: rest) = some (p, rest) ∧
      transpileLine (incMarker ++ p ++ '>' :: rest) = importReplacement p ++ rest ∧
      (transpileLine (incMarker ++ p ++ '>' :: rest)).length
        = (incMarker ++ p ++ '>' :: rest).length ∧
      (importReplacement p).length = (incMarker ++ p ++ ['>']).length ∧
      (transpileLine (incMarker ++ p ++ '>' :: rest)).drop (incMarker ++ p ++ ['>']).length
        = rest) ∧
    (∀ l : Line, isIncludeLine l = none → transpileLine l = l) := by
  constructor
  · intro p rest hgt
    have hpref : List.isPrefixOf incMarker (incMarker ++ p ++ '>' :: rest) = true := by
      rw [List.append_assoc]
      rw [List.isPrefixOf_iff_prefix]
      exact List.prefix_append _ _
    have hdrop : (incMarker ++ p ++ '>' :: rest).drop incMarker.length = p ++ '>' :: rest := by
      rw [List.append_assoc]
      exact List.drop_left _ _
    have hinc : isIncludeLine (incMarker ++ p ++ '>' :: rest) = some (p, rest) := by
      unfold isIncludeLine
      rw [if_pos hpref, hdrop]
      exact splitAtChar_append p rest hgt
    have htr : transpileLine (incMarker ++ p ++ '>' :: rest) = importReplacement p ++ rest := by
      unfold transpileLine
      rw [hinc]
    have hq10 : ("import   \"".toList).length = 10 := by decide
    have hm10 : incMarker.length = 10 := by decide
    have hlenrepl : (importReplacement p).length = (incMarker ++ p ++ ['>']).length := by
      simp only [importReplacement, List.length_append, List.length_cons, List.length_nil,
        List.length_singleton, hq10, hm10]
    refine ⟨hinc, htr, ?_, hlenrepl, ?_⟩
    · rw [htr]
      simp only [importReplacement, List.length_append, List.length_cons, List.length_nil,
        List.length_singleton, hq10, hm10]
      omega
    · rw [htr, hlenrepl.symm]
      exact List.drop_left _ _
  · intro l h
    unfold transpileLine
    rw [h]

/-- C10 witness: at path `u.js` and a trailing comment, the rewritten
line keeps its length and its tail. -/
theorem C10_transpile_witness :
    (isIncludeLine (incMarker ++ "u.js".toList ++ '>' :: " // c".toList)
        = some ("u.js".toList, " // c".toList) ∧
      transpileLine (incMarker ++ "u.js".toList ++ '>' :: " // c".toList)
        = importReplacement "u.js".toList ++ " // c".toList ∧
      (transpileLine (incMarker ++ "u.js".toList ++ '>' :: " // c".toList)).length
        = (incMarker ++ "u.js".toList ++ '>' :: " // c".toList).length ∧
      (importReplacement "u.js".toList).length = (incMarker ++ "u.js".toList ++ ['>']).length ∧
      (transpileLine (incMarker ++ "u.js".toList ++ '>' :: " // c".toList)).drop
          (incMarker ++ "u.js".toList ++ ['>']).length = " // c".toList) ∧
    transpileLine "let x = 1;".toList = "let x = 1;".toList :=
  ⟨C10_transpile.1 "u.js".toList " // c".toList (by decide),
   C10_transpile.2 "let x = 1;".toList (by decide)⟩

/-! ## Claim C9: edits inside a text block are frame-local -/

theorem updateFS_length (fs : FS) (p : Path) (v : List Line) :
    (updateFS fs p v).length = fs.length := by
  simp [updateFS]

theorem updateFS_lookup_other (fs : FS) (p : Path) (v : List Line) (q : Path) (h : q ≠ p) :
    lookupFS (updateFS fs p v) q = lookupFS fs q := by
  induction fs with
  | nil => rfl
  | cons a fs ih =>
    obtain ⟨ap, av⟩ := a
    by_cases hap : ap = p
    · have hstep : updateFS ((ap, av) :: fs) p v = (ap, v) :: updateFS fs p v := by
        simp [updateFS, hap]
      rw [hstep]
      have hne : ap ≠ q := by
        intro he
        exact h (he ▸ hap)
      show lookupFS ((ap, v) :: updateFS fs p v) q = lookupFS ((ap, av) :: fs) q
      simp only [lookupFS]
      rw [if_neg hne, if_neg hne]
      exact ih
    · have hstep : updateFS ((ap, av) :: fs) p v = (ap, av) :: updateFS fs p v := by
        simp [updateFS, hap]
      rw [hstep]
      show lookupFS ((ap, av) :: updateFS fs p v) q = lookupFS ((ap, av) :: fs) q
      simp only [lookupFS]
      by_cases hq : ap = q
      · rw [if_pos hq, if_pos hq]
      · rw [if_neg hq, if_neg hq]
        exact ih

theorem updateFS_lookup_self (fs : FS) (p : Path) (v : List Line)
    (h : ∃ w, lookupFS fs p = some w) : lookupFS (updateFS fs p v) p = some v := by
  induction fs with
  | nil => obtain ⟨w, hw⟩ := h; cases hw
  | cons a fs ih =>
    obtain ⟨ap, av⟩ := a
    obtain ⟨w, hw⟩ := h
    by_cases hap : ap = p
    · have hstep : updateFS ((ap, av) :: fs) p v = (ap, v) :: updateFS fs p v := by
        simp [updateFS, hap]
      rw [hstep]
      show lookupFS ((ap, v) :: updateFS fs p v) p = some v
      simp only [lookupFS]
      rw [if_pos hap]
    · have hstep : updateFS ((ap, av) :: fs) p v = (ap, av) :: updateFS fs p v := by
        simp [updateFS, hap]
      rw [hstep]
      show lookupFS ((ap, av) :: updateFS fs p v) p = some v
      simp only [lookupFS] at hw ⊢
      rw [if_neg hap] at hw ⊢
      exact ih ⟨w, hw⟩

theorem forall2_append_chunks {r : Chunk → Chunk → Prop} :
    ∀ {l1 l2 u1 u2 : List Chunk}, List.Forall₂ r l1 l2 → List.Forall₂ r u1 u2 →
      List.Forall₂ r (l1 ++ u1) (l2 ++ u2) := by
  intro l1 l2 u1 u2 h1 h2
  induction h1 with
  | nil => exact h2
  | cons hcc htail ih => exact List.Forall₂.cons hcc ih

theorem forall2_refl_chunks {r : Chunk → Chunk → Prop} {l : List Chunk}
    (h : ∀ x ∈ l, r x x) : List.Forall₂ r l l := by
  induction l with
  | nil => exact List.Forall₂.nil
  | cons a l ih =>
    exact List.Forall₂.cons (h a (List.mem_cons_self _ _))
      (ih (fun x hx => h x (List.mem_cons_of_mem _ hx)))

theorem chunkShift_reindex {f : Path} {o1 o2 d : Nat} {c c' : Chunk}
    (h : ChunkShift f (o1 + d) (o2 + d) c c') : ChunkShift f o1 o2 c c' := by
  obtain ⟨h1, h2, h3, h4, h5⟩ := h
  refine ⟨h1, h2, h3, fun hcf => ?_, h5⟩
  have := h4 hcf
  omega

/-- Walking the same items at a different starting offset produces the
same expansion with the offsets of the current file's chunks shifted. -/
theorem itemsWith_shift {rcall : SegKind → Path → List Path → ExpRes} {k : SegKind} {f : Path}
    {stack : List Path} (hf : f ∈ stack)
    (hrec : ∀ t' e3 cs3 e4, rcall (childKind k) t' e3 = .ok (cs3, e4) →
      ∀ ch ∈ cs3, ch.originFile ∉ stack) :
    ∀ (items : List PItem) (o1 o2 : Nat) (ex : List Path) (cs1 : List Chunk) (e1 : List Path),
      expandItemsWith rcall k f items o1 ex = .ok (cs1, e1) →
      ∃ cs2, expandItemsWith rcall k f items o2 ex = .ok (cs2, e1) ∧
        List.Forall₂ (ChunkShift f o1 o2) cs1 cs2 := by
  intro items
  induction items with
  | nil =>
    intro o1 o2 ex cs1 e1 h
    simp only [expandItemsWith, Except.ok.injEq, Prod.mk.injEq] at h
    refine ⟨[], ?_, ?_⟩
    · simp only [expandItemsWith]
      rw [h.2]
    · rw [← h.1]
      exact List.Forall₂.nil
  | cons x xs ih =>
    intro o1 o2 ex cs1 e1 h
    cases x with
    | plain l =>
      simp only [expandItemsWith] at h
      cases hr : expandItemsWith rcall k f xs (o1 + lineLen l) ex with
      | error err => rw [hr] at h; cases h
      | ok pr =>
        obtain ⟨cs1', e1'⟩ := pr
        rw [hr] at h
        simp only [Except.ok.injEq, Prod.mk.injEq] at h
        obtain ⟨hcs, he⟩ := h
        subst he
        obtain ⟨cs2', hrun2, hrel⟩ := ih (o1 + lineLen l) (o2 + lineLen l) ex cs1' _ hr
        refine ⟨plainChunk k f o2 l :: cs2', ?_, ?_⟩
        · simp only [expandItemsWith]
          rw [hrun2]
        · rw [← hcs]
          refine List.Forall₂.cons ?_
            (List.Forall₂.imp (fun x y hxy => chunkShift_reindex hxy) hrel)
          refine ⟨rfl, rfl, rfl, fun _ => ⟨?_, ?_⟩, fun hne => absurd rfl hne⟩
          · dsimp only [plainChunk]
            omega
          · dsimp only [plainChunk]
            omega
    | includeDir raw p =>
      simp only [expandItemsWith] at h
      cases hrc : rcall (childKind k) (resolvePath (dirOf f) p) ex with
      | error err => rw [hrc] at h; cases h
      | ok pr0 =>
        obtain ⟨tc, eI⟩ := pr0
        rw [hrc] at h
        dsimp only at h
        cases hr : expandItemsWith rcall k f xs (o1 + lineLen raw) eI with
        | error err => rw [hr] at h; cases h
        | ok pr =>
          obtain ⟨csR, e1'⟩ := pr
          rw [hr] at h
          simp only [Except.ok.injEq, Prod.mk.injEq] at h
          obtain ⟨hcs, he⟩ := h
          subst he
          obtain ⟨csR2, hrun2, hrel⟩ := ih (o1 + lineLen raw) (o2 + lineLen raw) eI csR _ hr
          refine ⟨tc ++ csR2, ?_, ?_⟩
          · simp only [expandItemsWith]
            rw [hrc]
            dsimp only
            rw [hrun2]
          · rw [← hcs]
            refine forall2_append_chunks ?_
              (List.Forall₂.imp (fun x y hxy => chunkShift_reindex hxy) hrel)
            refine forall2_refl_chunks ?_
            intro ch hch
            refine ⟨rfl, rfl, rfl, fun hcf => ?_, fun _ => ⟨rfl, rfl⟩⟩
            exact absurd (by rw [hcf]; exact hf) (hrec _ _ _ _ hrc ch hch)
    | textBlock ro tcont rc =>
      simp only [expandItemsWith] at h
      cases hr : expandItemsWith rcall k f xs (o1 + itemLen (PItem.textBlock ro tcont rc)) ex with
      | error err => rw [hr] at h; cases h
      | ok pr =>
        obtain ⟨cs1', e1'⟩ := pr
        rw [hr] at h
        simp only [Except.ok.injEq, Prod.mk.injEq] at h
        obtain ⟨hcs, he⟩ := h
        subst he
        obtain ⟨cs2', hrun2, hrel⟩ :=
          ih (o1 + itemLen (PItem.textBlock ro tcont rc))
            (o2 + itemLen (PItem.textBlock ro tcont rc)) ex cs1' _ hr
        refine ⟨tbChunks k f o2 ro tcont rc ++ cs2', ?_, ?_⟩
        · simp only [expandItemsWith]
          rw [hrun2]
        · rw [← hcs]
          refine forall2_append_chunks ?_
            (List.Forall₂.imp (fun x y hxy => chunkShift_reindex hxy) hrel)
          refine List.Forall₂.cons ?_ (List.Forall₂.cons ?_ (List.Forall₂.cons ?_
            List.Forall₂.nil)) <;>
            refine ⟨rfl, rfl, rfl, fun _ => ⟨?_, ?_⟩, fun hne => absurd rfl hne⟩ <;>
            · dsimp only [tbChunks]
              omega

/-- Data-equal shifted chunk lists emit the same bytes. -/
theorem emit_eq_of_shift {f : Path} {a b : Nat} :
    ∀ {Q Q2 : List Chunk}, List.Forall₂ (ChunkShift f a b) Q Q2 → emit Q2 = emit Q := by
  intro Q Q2 h
  induction h with
  | nil => rfl
  | cons hcc htail ih =>
    simp only [emit_cons]
    rw [ih, hcc.1]

/-- Shifted chunk lists produce `SegShift`-related segment tables when
their generated start positions differ by the same delta. -/
theorem segsFrom_shift {f : Path} {a b o1 o2 : Nat} (hab : o2 + a = o1 + b) :
    ∀ {Q Q2 : List Chunk}, List.Forall₂ (ChunkShift f o1 o2) Q Q2 →
      ∀ (G G2 : Nat), G2 + a = G + b →
      List.Forall₂ (SegShift f a b) (segsFrom G Q) (segsFrom G2 Q2) := by
  intro Q Q2 h
  induction h with
  | nil => intro G G2 hg; exact List.Forall₂.nil
  | @cons c1 c3 cs1 cs3 hcc htail ih =>
    intro G G2 hg
    obtain ⟨hd, hk, hof, hshifted, hkeep⟩ := hcc
    refine List.Forall₂.cons ?_ (ih (G + c1.data.length) (G2 + c3.data.length) ?_)
    · refine ⟨?_, ?_, ?_, ?_, ?_, ?_⟩
      · dsimp only [mkSeg]
        omega
      · dsimp only [mkSeg]
        rw [hd]
        omega
      · dsimp only [mkSeg]
        exact hof
      · dsimp only [mkSeg]
        exact hk
      · intro hofc
        dsimp only [mkSeg] at hofc ⊢
        have := hshifted hofc
        omega
      · intro hofc
        dsimp only [mkSeg] at hofc ⊢
        exact hkeep hofc
    · rw [hd]
      omega

/-! ## The frame effect of a `#text`-interior edit (spec 8 scenario 2) -/

theorem emit_tbChunks (k : SegKind) (f : Path) (o : Nat) (ro : Line) (c : List Line)
    (rc : Line) : emit (tbChunks k f o ro c rc) = lowerTB c := by
  simp [emit, tbChunks, lowerTB]

/-- **C9**: for an edit confined to the interior content of a `#text`
block — the file parses to the same items before and after except for
that block's content lines — rebundling succeeds, the generated text
changes only inside the block's lowered-literal region (identical prefix
and suffix around the lowered content), the segment table keeps an
identical prefix before the block, the block itself maps to three
segments in both tables, and every segment after the block is the old
segment shifted by exactly the length delta of the edit (generated
positions and, for segments of the edited file, original positions;
segments of other files keep their original spans). -/
theorem C9_frame {fs : FS} {pre root : Path} {lines lines2 : List Line}
    {I1 I2 : List PItem} {ro rc : Line} {c c2 : List Line} {cs : List Chunk}
    (hlk : lookupFS fs root = some lines)
    (hp : parseLines lines = .ok (I1 ++ PItem.textBlock ro c rc :: I2))
    (hp2 : parseLines lines2 = .ok (I1 ++ PItem.textBlock ro c2 rc :: I2))
    (hb : bundleChunks fs pre root = .ok cs) :
    ∃ cs2, bundleChunks (updateFS fs root lines2) pre root = .ok cs2 ∧
      (∃ pfx sfx, emit cs = pfx ++ (lowerTB c ++ sfx) ∧
        emit cs2 = pfx ++ (lowerTB c2 ++ sfx)) ∧
      (∃ S1 M M2 S2 S2b,
        segsFrom 0 cs = S1 ++ (M ++ S2) ∧ segsFrom 0 cs2 = S1 ++ (M2 ++ S2b) ∧
        M.length = 3 ∧ M2.length = 3 ∧
        List.Forall₂ (SegShift root (totalLen c) (totalLen c2)) S2 S2b) := by
  obtain ⟨lines0, items0, pc, e1, own, e2, hlk0, hp0, hpre, hown, hcs⟩ := bundle_inv hb
  rw [hlk] at hlk0
  injection hlk0 with hl0
  subst hl0
  rw [hp] at hp0
  injection hp0 with hi0
  subst hi0
  obtain ⟨cA, eA, cB, hI1, hB, hcsB⟩ := itemsWith_append_ok hown
  obtain ⟨Q, hI2, hQ⟩ := itemsWith_textblock_ok hB
  have hrecS : ∀ t' e3 cs3 e4,
      expandTarget fs (bundleFuel fs) [root] (childKind SegKind.Verbatim) t' e3
        = .ok (cs3, e4) → ∀ ch ∈ cs3, ch.originFile ∉ [root] := by
    intro t' e3 cs3 e4 hcall ch hch
    exact ((target_inv fs (bundleFuel fs) [root] (childKind SegKind.Verbatim) t' e3 cs3 e4
      (childKind_ne_verbatim _) hcall).2 ch hch).1
  obtain ⟨Q2, hI2n, hrel⟩ := @itemsWith_shift
      (fun k' t' e' => expandTarget fs (bundleFuel fs) [root] k' t' e') SegKind.Verbatim root
      [root] (List.mem_cons_self root []) hrecS I2
      (0 + itemsLen I1 + itemLen (PItem.textBlock ro c rc))
      (0 + itemsLen I1 + itemLen (PItem.textBlock ro c2 rc)) eA Q e2 hI2
  have hB2 : expandItemsWith (fun k' t' e' => expandTarget fs (bundleFuel fs) [root] k' t' e')
      SegKind.Verbatim root (PItem.textBlock ro c2 rc :: I2) (0 + itemsLen I1) eA
      = .ok (tbChunks SegKind.Verbatim root (0 + itemsLen I1) ro c2 rc ++ Q2, e2) := by
    simp only [expandItemsWith]
    rw [hI2n]
  have hown2 : expandItemsWith
      (fun k' t' e' => expandTarget fs (bundleFuel fs) [root] k' t' e')
      SegKind.Verbatim root (I1 ++ PItem.textBlock ro c2 rc :: I2) 0 e1
      = .ok (cA ++ (tbChunks SegKind.Verbatim root (0 + itemsLen I1) ro c2 rc ++ Q2), e2) := by
    rw [itemsWith_append (fun k' t' e' => expandTarget fs (bundleFuel fs) [root] k' t' e')
      SegKind.Verbatim root I1 (PItem.textBlock ro c2 rc :: I2) 0 e1]
    rw [hI1]
    dsimp only
    rw [hB2]
  have hF : bundleFuel (updateFS fs root lines2) = bundleFuel fs := by
    simp [bundleFuel, updateFS_length]
  have hcong : ∀ k' t' e',
      expandTarget (updateFS fs root lines2) (bundleFuel fs) [root] k' t' e'
        = expandTarget fs (bundleFuel fs) [root] k' t' e' := by
    intro k' t' e'
    refine target_congr (updateFS fs root lines2) fs (bundleFuel fs) [root] k' t' e' ?_
    intro p hpm
    refine updateFS_lookup_other fs root lines2 p ?_
    intro he
    exact hpm (by rw [he]; exact List.mem_cons_self root [])
  refine ⟨pc ++ (cA ++ (tbChunks SegKind.Verbatim root (0 + itemsLen I1) ro c2 rc ++ Q2)),
    ?_, ?_, ?_⟩
  · unfold bundleChunks
    rw [updateFS_lookup_self fs root lines2 ⟨lines, hlk⟩]
    dsimp only
    rw [hp2]
    dsimp only
    rw [hF]
    rw [hcong SegKind.InjectedPreamble pre [root], hpre]
    dsimp only
    rw [itemsWith_congr hcong (I1 ++ PItem.textBlock ro c2 rc :: I2) 0 e1]
    rw [hown2]
  · refine ⟨emit pc ++ emit cA, emit Q, ?_, ?_⟩
    · rw [hcs, hcsB, hQ]
      simp only [emit_append, emit_tbChunks, List.append_assoc]
    · have hQ2 : emit Q2 = emit Q := emit_eq_of_shift hrel
      simp only [emit_append, emit_tbChunks, hQ2, List.append_assoc]
  · have hfloor : cs = (pc ++ cA)
        ++ (tbChunks SegKind.Verbatim root (0 + itemsLen I1) ro c rc ++ Q) := by
      rw [hcs, hcsB, hQ]
      simp [List.append_assoc]
    refine ⟨segsFrom 0 (pc ++ cA),
      segsFrom (0 + (emit (pc ++ cA)).length)
        (tbChunks SegKind.Verbatim root (0 + itemsLen I1) ro c rc),
      segsFrom (0 + (emit (pc ++ cA)).length)
        (tbChunks SegKind.Verbatim root (0 + itemsLen I1) ro c2 rc),
      segsFrom (0 + (emit (pc ++ cA)).length
        + (emit (tbChunks SegKind.Verbatim root (0 + itemsLen I1) ro c rc)).length) Q,
      segsFrom (0 + (emit (pc ++ cA)).length
        + (emit (tbChunks SegKind.Verbatim root (0 + itemsLen I1) ro c2 rc)).length) Q2,
      ?_, ?_, ?_, ?_, ?_⟩
    · rw [hfloor,
        segsFrom_append 0 (pc ++ cA)
          (tbChunks SegKind.Verbatim root (0 + itemsLen I1) ro c rc ++ Q),
        segsFrom_append (0 + (emit (pc ++ cA)).length)
          (tbChunks SegKind.Verbatim root (0 + itemsLen I1) ro c rc) Q]
    · rw [show pc ++ (cA ++ (tbChunks SegKind.Verbatim root (0 + itemsLen I1) ro c2 rc ++ Q2))
          = (pc ++ cA) ++ (tbChunks SegKind.Verbatim root (0 + itemsLen I1) ro c2 rc ++ Q2) by
        simp [List.append_assoc]]
      rw [segsFrom_append 0 (pc ++ cA)
          (tbChunks SegKind.Verbatim root (0 + itemsLen I1) ro c2 rc ++ Q2),
        segsFrom_append (0 + (emit (pc ++ cA)).length)
          (tbChunks SegKind.Verbatim root (0 + itemsLen I1) ro c2 rc) Q2]
    · simp [tbChunks, segsFrom]
    · simp [tbChunks, segsFrom]
    · refine segsFrom_shift ?_ hrel _ _ ?_
      · simp only [itemLen]
        omega
      · simp only [emit_tbChunks, lowerTB, List.length_append, origText_length]
        omega

/-- Witness for C9 on the example workspace: the interior edit `T` → `TT`
of the root file's `#text` block satisfies the frame property. -/
theorem C9_frame_witness :
    lookupFS exFS exA = some exALines ∧
    parseLines exALines = .ok (exI1 ++ PItem.textBlock exRo exC exRc :: exI2) ∧
    parseLines exALines2 = .ok (exI1 ++ PItem.textBlock exRo exC2 exRc :: exI2) ∧
    bundleChunks exFS exPre exA = .ok exCS ∧
    (∃ cs2, bundleChunks (updateFS exFS exA exALines2) exPre exA = .ok cs2 ∧
      (∃ pfx sfx, emit exCS = pfx ++ (lowerTB exC ++ sfx) ∧
        emit cs2 = pfx ++ (lowerTB exC2 ++ sfx)) ∧
      (∃ S1 M M2 S2 S2b,
        segsFrom 0 exCS = S1 ++ (M ++ S2) ∧ segsFrom 0 cs2 = S1 ++ (M2 ++ S2b) ∧
        M.length = 3 ∧ M2.length = 3 ∧
        List.Forall₂ (SegShift exA (totalLen exC) (totalLen exC2)) S2 S2b)) :=
  ⟨rfl, rfl, rfl, rfl,
    @C9_frame exFS exPre exA exALines exALines2 exI1 exI2 exRo exRc exC exC2 exCS
      rfl rfl rfl rfl⟩


end GLS
